import Mathlib

/-!
Verification of the putio folder-upload client (putio-cli) against its design
specification.  The Python sources (putio/core.py, putio/auth.py) are embedded
shallowly: pure helpers become Lean functions on `Nat`/`String`, the remote
put.io filesystem becomes an explicit state (`Remote`), stateful operations
become explicit state passing, and Python exceptions become `Except`/sum
results.  All definitions are executable.
-/

namespace Putio

/-! ## String helpers

Python string primitives used by core.py, modelled on `List Char`.
Python compares and stores strings by Unicode code points; Lean's `String`
wraps a `List Char` of code points, so the embedding is faithful. -/

/-- Python `str.removeprefix`: drop `pre` when it is a leading copy, else
return the string unchanged. -/
def dropPre (pre s : List Char) : List Char :=
  if pre.isPrefixOf s then s.drop pre.length else s

/-- Fuel-based worker for Python `str.replace`: each step consumes at least
one character of `s`, so any `fuel ≥ s.length` computes the replacement.
Structural recursion on the fuel keeps the definition kernel-reducible. -/
def rAll (old new : List Char) : Nat → List Char → List Char
  | _, [] => if old.isEmpty then new else []
  | 0, _ :: _ => []
  | fuel + 1, c :: rest =>
    if old.isEmpty then new ++ c :: rAll old new fuel rest
    else if old.isPrefixOf (c :: rest) then
      new ++ rAll old new fuel ((c :: rest).drop old.length)
    else c :: rAll old new fuel rest

/-- Python `str.replace old new`: replace every non-overlapping occurrence of
`old`, scanning left to right.  With `old = ""` Python inserts `new` at every
position. -/
def replaceAll (old new s : List Char) : List Char := rAll old new s.length s

/-- `containsSub old s` decides whether `old` occurs as a contiguous substring
of `s` (at any position). -/
def containsSub (old : List Char) : List Char → Bool
  | [] => old.isEmpty
  | c :: rest => old.isPrefixOf (c :: rest) || containsSub old rest

/-- core.py `rel_path`: strip the source's parent-directory path, then replace
the occurrences of the leading component by the assigned name via Python
`str.replace`.  (`base, _, _ = relative_path.partition("/")` keeps everything
before the first slash.) -/
def rel_path (path source_name src_pre : String) : String :=
  let relative_path := dropPre src_pre.data path.data
  let base := relative_path.takeWhile (fun c => c != '/')
  String.mk (replaceAll base source_name.data relative_path)

/-! ## Size humanization (core.py `human_size`) -/

/-- The GB branch of `human_size`: Python renders `size / 1_000_000_000` (an
IEEE double) with one decimal digit.  We model the one-decimal rendering by
rounding the exact rational `size / 10^9` to tenths (half away from zero);
this agrees with the double-based rendering on all sizes checked by the
repository's tests and differs only at representation edge cases of binary
floating point, which no claim touches. -/
def gbFormat (size : Nat) : String :=
  let tenths := (size * 10 + 500000000) / 1000000000
  toString (tenths / 10) ++ "." ++ toString (tenths % 10) ++ " GB"

/-- core.py `human_size`: thresholds are exclusive lower bounds, MB and KB are
integer-divided, below 1000 the raw byte count is reported. -/
def human_size (size : Nat) : String :=
  if size > 1000000000 then gbFormat size
  else if size > 1000000 then toString (size / 1000000) ++ " MB"
  else if size > 1000 then toString (size / 1000) ++ " KB"
  else toString size ++ " B"

/-! ## OAuth polling loop (auth.py `get_token_from_oauth`)

The loop `while remaining:` repeatedly issues `GET /get-access-token`;
status 200 returns the token, status 404 subtracts the retry period from
`remaining` and sleeps, and any other status aborts.  The loop guard is
Python truthiness of the integer `remaining` (it stops only when `remaining`
is exactly 0).  The network is modelled as the list of responses the server
would give to successive polls; `stillPolling` means the loop is still
running after consuming that many responses. -/

structure PollResponse where
  status : Nat
  text : String
deriving DecidableEq, Repr

inductive PollOutcome where
  /-- `return access_token` -/
  | token (t : String)
  /-- "An error occured in authorization server." and exit 1 -/
  | serverError
  /-- "Access token couldn't be received in X seconds." and exit 1 -/
  | timedOut
  /-- the response stream was exhausted with the loop still live, with this
  value of `remaining`; a longer stream keeps the loop running -/
  | stillPolling (remaining : Int)
deriving DecidableEq, Repr

/-- The polling loop of `get_token_from_oauth`, with `remaining` initially
`APP_OAUTH_TIMEOUT` and `retry_period = APP_OAUTH_RETRY_PERIOD`. -/
def pollLoop (retry_period : Int) : Int → List PollResponse → PollOutcome
  | remaining, resps =>
    if remaining = 0 then .timedOut
    else
      match resps with
      | [] => .stillPolling remaining
      | r :: rest =>
        if r.status = 200 then .token r.text
        else if r.status = 404 then pollLoop retry_period (remaining - retry_period) rest
        else .serverError

/-! ## The remote filesystem model

The put.io service is a black box behind `putiopy`; the claims only depend on
its documented behaviour: entries have a numeric id, a name unique among the
children of one parent, a kind (`"FOLDER"`/`"FILE"`) and a size; creating a
folder under a parent that already has a child of that name fails with error
type `NAME_ALREADY_EXIST`; ids are assigned by the service and never reused.
`Remote` realises exactly that; `Sys` additionally logs every remote call so
the claims about call traces can be stated. -/

structure Entry where
  id : Nat
  name : String
  file_type : String
  size : Nat
  parent : Nat
deriving DecidableEq, Repr

structure Remote where
  entries : List Entry
  nextId : Nat
deriving DecidableEq, Repr

inductive Call where
  | createCall (name : String) (parent : Nat)
  | listCall (parent : Nat)
  | uploadCall (path : String) (parent : Nat)
  | deleteCall (id : Nat)
deriving DecidableEq, Repr

structure Sys where
  fs : Remote
  calls : List Call
deriving DecidableEq, Repr

/-- The typed error taxonomy of putio/_errors.py, plus `keyError` for a
Python `KeyError` raised by a failed `dir_ids[...]` lookup. -/
inductive Err where
  | nameClash (name : String) (parent : Nat)
  | nameClashWithFile (name : String) (parent : Nat)
  | unknownAPI (context : String)
  | keyError (key : String)
deriving DecidableEq, Repr

/-- Does `parent` already have a child called `name`?  This is the condition
under which the remote service reports `NAME_ALREADY_EXIST`. -/
def Remote.clash (fsys : Remote) (name : String) (parent : Nat) : Bool :=
  fsys.entries.any (fun e => e.parent == parent && e.name == name)

/-- Remote `File.create_folder`: on a name clash the service reports error
type `NAME_ALREADY_EXIST`; otherwise a fresh folder entry is appended and the
next id advances.  The error value is the `putiopy.APIError`'s `type`. -/
def apiCreateFolder (s : Sys) (name : String) (parent : Nat) :
    (Except String Entry) × Sys :=
  let logged := { s with calls := s.calls ++ [.createCall name parent] }
  if s.fs.clash name parent then (.error "NAME_ALREADY_EXIST", logged)
  else
    let e : Entry := ⟨s.fs.nextId, name, "FOLDER", 0, parent⟩
    (.ok e, { logged with
              fs := ⟨s.fs.entries ++ [e], s.fs.nextId + 1⟩ })

/-- Remote `File.list parent`: the immediate children, in creation order. -/
def apiList (s : Sys) (parent : Nat) : List Entry × Sys :=
  (s.fs.entries.filter (fun e => e.parent == parent),
   { s with calls := s.calls ++ [.listCall parent] })

/-- Remote `File.upload`: streams a local file and returns the created FILE
entry.  The embedding passes the local file's name and byte size explicitly
(in Python they come from the file on disk at `path`). -/
def apiUpload (s : Sys) (path : String) (fname : String) (fsize : Nat)
    (parent : Nat) : Entry × Sys :=
  let e : Entry := ⟨s.fs.nextId, fname, "FILE", fsize, parent⟩
  (e, { fs := ⟨s.fs.entries ++ [e], s.fs.nextId + 1⟩,
        calls := s.calls ++ [.uploadCall path parent] })

/-- Remote `file.delete()`.  put.io deletes the whole subtree; since ids are
never reused, the (unreachable) descendants of a deleted folder can never
clash with anything created later, so the model removes just the entry
itself. -/
def apiDelete (s : Sys) (id : Nat) : Sys :=
  { fs := ⟨s.fs.entries.filter (fun e => e.id != id), s.fs.nextId⟩,
    calls := s.calls ++ [.deleteCall id] }

/-! ## Gateway wrappers (core.py `create_folder`, `get_folder`,
`upload_file`) -/

/-- The error translation of core.py `create_folder` (lines 162-172),
stated over an arbitrary outcome of the underlying API call: a
`NAME_ALREADY_EXIST` error becomes `NameClashError(name, parent_id)`,
any other API error becomes `UnknownAPIError` with the action context. -/
def wrapCreate (r : Except String Entry) (name : String) (parent_id : Nat) :
    Except Err Entry :=
  match r with
  | .ok folder => .ok folder
  | .error t =>
    if t ≠ "NAME_ALREADY_EXIST" then
      .error (.unknownAPI ("Creating folder `" ++ name ++ "` in `"
        ++ toString parent_id ++ "`"))
    else .error (.nameClash name parent_id)

/-- core.py `create_folder` (the variant in src/, without `force`). -/
def create_folder (s : Sys) (name : String) (parent_id : Nat) :
    (Except Err Entry) × Sys :=
  match apiCreateFolder s name parent_id with
  | (r, s') => (wrapCreate r name parent_id, s')

/-- core.py `get_folder`: list the parent's children and return the first
with matching name and kind FOLDER, else `None`. -/
def get_folder (s : Sys) (name : String) (parent_id : Nat) :
    (Option Entry) × Sys :=
  match apiList s parent_id with
  | (children, s') =>
    (children.find? (fun f => f.name == name && f.file_type == "FOLDER"), s')

/-- core.py `upload_file`: upload and return the created file entry (any
API failure would be wrapped as `UnknownAPIError`; the state model's upload
always succeeds). -/
def upload_file (s : Sys) (file_path : String) (fname : String) (fsize : Nat)
    (parent_id : Nat) : Entry × Sys :=
  apiUpload s file_path fname fsize parent_id

/-- Modelled from the spec: the `force` collision policy of `create_folder`
(§4.3).  The force-handling variant of core.py's `create_folder` is called
by cli.py and exercised by tests/test_core.py but is absent from the src/
snapshot of core.py (the spec notes "core.py variants").  Following the
spec's words: with `force=false` a NameClash is fatal; with `force=true`,
on NameClash look up the existing sibling of that name — if it is a FOLDER,
delete it and retry `create_folder` once; if it is a FILE (no folder is
found), fail with `NameClashWithFile(name, parent_id)` and issue no
delete. -/
def create_folder_f (s : Sys) (name : String) (parent_id : Nat)
    (force : Bool) : (Except Err Entry) × Sys :=
  match create_folder s name parent_id with
  | (.ok folder, s') => (.ok folder, s')
  | (.error (.nameClash _ _), s') =>
    if force then
      match get_folder s' name parent_id with
      | (some folder, s'') =>
        create_folder (apiDelete s'' folder.id) name parent_id
      | (none, s'') => (.error (.nameClashWithFile name parent_id), s'')
    else (.error (.nameClash name parent_id), s')
  | (.error e, s') => (.error e, s')

/-! ## Target resolution (core.py `get_target_id`) -/

/-- Python `str.split("/")` (worker, accumulating the current component in
reverse). -/
def splitSlashAux (cur : List Char) : List Char → List (List Char)
  | [] => [cur.reverse]
  | c :: rest =>
    if c = '/' then cur.reverse :: splitSlashAux [] rest
    else splitSlashAux (c :: cur) rest

/-- Python `target.split("/")`; in particular `"".split("/") = [""]`. -/
def splitSlash (s : String) : List String :=
  (splitSlashAux [] s.data).map String.mk

/-- The per-component loop of `get_target_id`: try to create the component,
on `NameClashError` fall back to `get_folder`, and fail with
`NameClashWithFileError` when no folder of that name exists.  Any other
error propagates. -/
def get_target_id_go : List String → Nat → Sys → (Except Err Nat) × Sys
  | [], parent_id, s => (.ok parent_id, s)
  | comp :: rest, parent_id, s =>
    match create_folder s comp parent_id with
    | (.ok folder, s') => get_target_id_go rest folder.id s'
    | (.error (.nameClash _ _), s') =>
      match get_folder s' comp parent_id with
      | (none, s'') => (.error (.nameClashWithFile comp parent_id), s'')
      | (some folder, s'') => get_target_id_go rest folder.id s''
    | (.error e, s') => (.error e, s')

/-- core.py `get_target_id`: `if not target: return 0` (Python falsiness:
`None` and the empty string), else walk the components from the root id. -/
def get_target_id (s : Sys) (target : Option String) : (Except Err Nat) × Sys :=
  match target with
  | none => (.ok 0, s)
  | some t => if t = "" then (.ok 0, s) else get_target_id_go (splitSlash t) 0 s

/-! ## Spec-side resolver (§4.2), for the C3 refinement statement -/

/-- Written from the spec's words (§4.2, step loop): attempt
`create_folder(component, parent_id=current)`; on success advance `current`;
on NameClash call `list_children(current)` filtered to
`kind == FOLDER and name == component` — if found reuse its id, if not found
fail with `NameClashWithFile(component, current)`. -/
def resolve_go : List String → Nat → Sys → (Except Err Nat) × Sys
  | [], current, s => (.ok current, s)
  | comp :: rest, current, s =>
    match create_folder s comp current with
    | (.ok folder, s') => resolve_go rest folder.id s'
    | (.error (.nameClash _ _), s') =>
      match apiList s' current with
      | (children, s'') =>
        match children.filter
            (fun f => f.file_type == "FOLDER" && f.name == comp) with
        | [] => (.error (.nameClashWithFile comp current), s'')
        | found :: _ => resolve_go rest found.id s''
    | (.error e, s') => (.error e, s')

/-- Written from the spec's words (§4.2): if `target` is absent return the
root id 0, otherwise split on `/` and run the component loop from the
root id. -/
def resolve_target_spec (s : Sys) (target : Option String) :
    (Except Err Nat) × Sys :=
  match target with
  | none => (.ok 0, s)
  | some t => resolve_go (splitSlash t) 0 s

instance {α β : Type} [DecidableEq α] [DecidableEq β] :
    DecidableEq (Except α β) := fun a b =>
  match a, b with
  | .ok x, .ok y =>
    if h : x = y then .isTrue (congrArg Except.ok h)
    else .isFalse (fun hh => h (Except.ok.inj hh))
  | .error x, .error y =>
    if h : x = y then .isTrue (congrArg Except.error h)
    else .isFalse (fun hh => h (Except.error.inj hh))
  | .ok _, .error _ => .isFalse (fun hh => Except.noConfusion hh)
  | .error _, .ok _ => .isFalse (fun hh => Except.noConfusion hh)

/-! ## Example states used by the concrete witnesses -/

/-- The empty system: a fresh account with no entries; the service hands out
ids from 1 (id 0 is the root). -/
def sys0 : Sys := ⟨⟨[], 1⟩, []⟩

/-- A remote account that already holds folders `a` (id 1, under the root)
and `b` (id 2, under `a`), for the prefix-reuse example of C8. -/
def sysPre : Sys :=
  ⟨⟨[⟨1, "a", "FOLDER", 0, 0⟩, ⟨2, "b", "FOLDER", 0, 1⟩], 3⟩, []⟩

/-! ## Local trees and the sorted walk (core.py `upload_folder`)

A local directory tree: each node carries its immediate subdirectories (name,
subtree) and its immediate files (name, byte size), in arbitrary filesystem
enumeration order.  `os.walk(source)` yields the triple of one directory
top-down; the loop body sorts `folders` and `files` in place (so both the
processing order and the descent order are the sorted ones) and descends into
each subdirectory after the parent triple is fully processed. -/

inductive LTree where
  | node : List (String × LTree) → List (String × Nat) → LTree

/-- Python `list.sort()` on code points, restricted to the first component.
Python strings compare lexicographically by Unicode code point. -/
def clLe : List Char → List Char → Bool
  | [], _ => true
  | _ :: _, [] => false
  | a :: as, b :: bs =>
    if a.toNat < b.toNat then true
    else if b.toNat < a.toNat then false
    else clLe as bs

/-- Ordering by name, as used by `folders.sort()` / `files.sort()`. -/
def nameLe {α : Type} (a b : String × α) : Prop := clLe a.1.data b.1.data = true

theorem clLe_total : ∀ a b : List Char, clLe a b = true ∨ clLe b a = true := by
  intro a
  induction a with
  | nil => intro b; left; rfl
  | cons x xs ih =>
    intro b
    cases b with
    | nil => right; rfl
    | cons y ys =>
      by_cases h1 : x.toNat < y.toNat
      · left; simp [clLe, h1]
      · by_cases h2 : y.toNat < x.toNat
        · right; simp [clLe, h2]
        · have hx : ¬y.toNat < x.toNat := h2
          rcases ih ys with h | h
          · left; simp [clLe, h1, h2, h]
          · right; simp [clLe, h1, hx, h]

theorem clLe_trans : ∀ a b c : List Char,
    clLe a b = true → clLe b c = true → clLe a c = true := by
  intro a
  induction a with
  | nil => intro b c _ _; rfl
  | cons x xs ih =>
    intro b c hab hbc
    cases b with
    | nil => simp [clLe] at hab
    | cons y ys =>
      cases c with
      | nil => simp [clLe] at hbc
      | cons z zs =>
        simp only [clLe] at hab hbc ⊢
        by_cases hxy : x.toNat < y.toNat
        · by_cases hyz : y.toNat < z.toNat
          · rw [if_pos (by omega)]
          · by_cases hzy : z.toNat < y.toNat
            · simp [hyz, hzy] at hbc
            · have : y.toNat = z.toNat := by omega
              rw [if_pos (by omega)]
        · by_cases hyx : y.toNat < x.toNat
          · simp [hxy, hyx] at hab
          · have hxeqy : x.toNat = y.toNat := by omega
            by_cases hyz : y.toNat < z.toNat
            · rw [if_pos (by omega)]
            · by_cases hzy : z.toNat < y.toNat
              · simp [hyz, hzy] at hbc
              · rw [if_neg (by omega), if_neg (by omega)]
                rw [if_neg hxy, if_neg hyx] at hab
                rw [if_neg hyz, if_neg hzy] at hbc
                exact ih ys zs hab hbc

instance {α : Type} : DecidableRel (@nameLe α) := fun a b => by
  unfold nameLe
  infer_instance

instance {α : Type} : IsTotal (String × α) nameLe :=
  ⟨fun a b => clLe_total a.1.data b.1.data⟩

instance {α : Type} : IsTrans (String × α) nameLe :=
  ⟨fun a b c => clLe_trans a.1.data b.1.data c.1.data⟩

/-- Python `list.sort()` is a stable sort; on keyed pairs any stable sort by
key equals insertion sort, and sibling names are distinct anyway. -/
def sortPairs {α : Type} (l : List (String × α)) : List (String × α) :=
  List.insertionSort nameLe l

mutual
/-- Structural size of a tree, used as recursion fuel for the walk. -/
def LTree.sz : LTree → Nat
  | .node dirs files => 1 + szl dirs + files.length
/-- Combined size of a sibling list. -/
def szl : List (String × LTree) → Nat
  | [] => 0
  | (_, t) :: rest => 1 + t.sz + szl rest
end

/-! ## The walk state and the walk itself -/

/-- The events the Uploader reports through `vecho`/`echo` (claims C4, C5).
`progress` records the counters at the observation point; the rendered line
shows `human_size` of the two sizes. -/
inductive Event where
  | folderCreated (relPath : String)
  | fileUploaded (relPath : String)
  | progress (uploaded_count total_count uploaded_size total_size : Nat)
deriving DecidableEq, Repr

/-- The mutable state of one `upload_folder` invocation: the remote system
(with its call log), the `dir_ids` map (a Python dict modelled as an
association list where the most recent insertion wins), the two progress
counters, and the emitted events. -/
structure WSt where
  sys : Sys
  dir_ids : List (String × Nat)
  uploaded_count : Nat
  uploaded_size : Nat
  events : List Event
deriving DecidableEq, Repr

/-- Python dict lookup `dir_ids[k]` (first match = latest insertion). -/
def lookupKey (k : String) : List (String × Nat) → Option Nat
  | [] => none
  | (k', v) :: rest => if k' = k then some v else lookupKey k rest

/-- Per-invocation constants: the assigned name and source prefix used by
`rel_path`, and the pre-scanned totals used by progress events. -/
structure Ctx where
  name : String
  srcPre : String
  total_count : Nat
  total_size : Nat

/-- The `for folder_name in folders:` loop body of `upload_folder`:
look up `dir_ids[str(path)]`, create the remote folder (raising `KeyError`
on a missing map key), record the new id under the subdirectory's path and
emit a "folder created" event. -/
def walkFolders (cx : Ctx) (force : Bool) (path : String) :
    List (String × LTree) → WSt → (Except Err Unit) × WSt
  | [], w => (.ok (), w)
  | (n, _) :: rest, w =>
    match lookupKey path w.dir_ids with
    | none => (.error (.keyError path), w)
    | some pid =>
      match create_folder_f w.sys n pid force with
      | (.error e, sys') => (.error e, { w with sys := sys' })
      | (.ok folder, sys') =>
        walkFolders cx force path rest
          { w with
            sys := sys',
            dir_ids := (path ++ "/" ++ n, folder.id) :: w.dir_ids,
            events := w.events
              ++ [.folderCreated (rel_path (path ++ "/" ++ n) cx.name cx.srcPre)] }

/-- The `for file_name in files:` loop body: look up the parent id, upload,
bump both counters by the uploaded file's reported size, and emit the
"file uploaded" and "progress" events. -/
def walkFiles (cx : Ctx) (path : String) :
    List (String × Nat) → WSt → (Except Err Unit) × WSt
  | [], w => (.ok (), w)
  | (n, fsize) :: rest, w =>
    match lookupKey path w.dir_ids with
    | none => (.error (.keyError path), w)
    | some pid =>
      match upload_file w.sys (path ++ "/" ++ n) n fsize pid with
      | (file, sys') =>
        walkFiles cx path rest
          { w with
            sys := sys',
            uploaded_count := w.uploaded_count + 1,
            uploaded_size := w.uploaded_size + file.size,
            events := w.events
              ++ [.fileUploaded (rel_path (path ++ "/" ++ n) cx.name cx.srcPre),
                  .progress (w.uploaded_count + 1) cx.total_count
                    (w.uploaded_size + file.size) cx.total_size] }

mutual
/-- One `os.walk` triple: process the sorted subdirectories, then the sorted
files, then descend into each subdirectory in sorted order.  (`os.walk`
yields the parent triple first and honours the in-place sort of `folders`
for the descent.)  The `fuel` argument only makes the mutual recursion
structural; any fuel of at least `t.sz` computes the walk (the wrapper
`walkNode` passes exactly that), and running out of fuel is modelled as an
unknown API failure, which no real run reaches. -/
def walkNodeF (cx : Ctx) (force : Bool) :
    Nat → String → LTree → WSt → (Except Err Unit) × WSt
  | 0, _, _, w => (.error (.unknownAPI "recursion fuel exhausted"), w)
  | fuel + 1, path, .node dirs files, w =>
    match walkFolders cx force path (sortPairs dirs) w with
    | (.error e, w₁) => (.error e, w₁)
    | (.ok _, w₁) =>
      match walkFiles cx path (sortPairs files) w₁ with
      | (.error e, w₂) => (.error e, w₂)
      | (.ok _, w₂) => walkChildrenF cx force fuel path (sortPairs dirs) w₂

/-- Descend into the (already created) subdirectories, in order. -/
def walkChildrenF (cx : Ctx) (force : Bool) :
    Nat → String → List (String × LTree) → WSt → (Except Err Unit) × WSt
  | 0, _, _, w => (.error (.unknownAPI "recursion fuel exhausted"), w)
  | _ + 1, _, [], w => (.ok (), w)
  | fuel + 1, path, (n, sub) :: rest, w =>
    match walkNodeF cx force fuel (path ++ "/" ++ n) sub w with
    | (.error e, w') => (.error e, w')
    | (.ok _, w') => walkChildrenF cx force fuel path rest w'
end

/-- The tree walk of `upload_folder` (fuel instantiated sufficiently). -/
def walkNode (cx : Ctx) (force : Bool) (path : String) (t : LTree) (w : WSt) :
    (Except Err Unit) × WSt :=
  walkNodeF cx force t.sz path t w

mutual
/-- Pre-scan (`source.rglob("*")` filtered to files): number of files under
the tree. -/
def totalCount : LTree → Nat
  | .node dirs files => files.length + totalCountL dirs
def totalCountL : List (String × LTree) → Nat
  | [] => 0
  | (_, t) :: rest => totalCount t + totalCountL rest
end

mutual
/-- Pre-scan: total byte size of all files under the tree. -/
def totalSize : LTree → Nat
  | .node dirs files => (files.map Prod.snd).sum + totalSizeL dirs
def totalSizeL : List (String × LTree) → Nat
  | [] => 0
  | (_, t) :: rest => totalSize t + totalSizeL rest
end

/-- core.py `upload_folder`: resolve the target, create the mirrored root
(the spec-modelled force policy applies; the src/ snapshot calls the plain
`create_folder`, which coincides with `force = false`), seed `dir_ids` with
the source's own path, pre-scan the totals, and walk.  `sourceStr` stands
for Python `str(source)` and `sourceParent` for `str(source.parent)`; the
unconditional banner and summary `echo` lines carry no per-node data and are
not modelled as events. -/
def upload_folder (t : LTree) (sourceStr sourceParent : String)
    (target : Option String) (name : String) (force : Bool) (s : Sys) :
    (Except Err Unit) × WSt :=
  match get_target_id s target with
  | (.error e, s') => (.error e, ⟨s', [], 0, 0, []⟩)
  | (.ok target_id, s') =>
    match create_folder_f s' name target_id force with
    | (.error e, s'') => (.error e, ⟨s'', [], 0, 0, []⟩)
    | (.ok folder, s'') =>
      let cx : Ctx := ⟨name, sourceParent ++ "/", totalCount t, totalSize t⟩
      walkNode cx force sourceStr t ⟨s'', [(sourceStr, folder.id)], 0, 0, []⟩

/-! ## Local-tree well-formedness and the expected success trace (C2) -/

/-- No `/` in a name (true of every real file or directory name). -/
def noSlash (s : String) : Bool := !(s.data.any (fun ch => ch == '/'))

/-- Pairwise-distinct first components (sibling names are unique on a real
filesystem). -/
def nodupKeys {α : Type} : List (String × α) → Bool
  | [] => true
  | (n, _) :: rest => !(rest.any (fun q => q.1 == n)) && nodupKeys rest

mutual
/-- A well-formed local tree: at every level the subdirectory names are
pairwise distinct and slash-free and the file names are pairwise distinct,
recursively.  Every tree produced by scanning a real directory satisfies
this. -/
def wfT : LTree → Bool
  | .node dirs files =>
    nodupKeys dirs && dirs.all (fun q => noSlash q.1)
      && nodupKeys files && wfL dirs
/-- `wfT` for each subtree of a sibling list. -/
def wfL : List (String × LTree) → Bool
  | [] => true
  | (_, sub) :: rest => wfT sub && wfL rest
end

mutual
/-- Number of remote objects (folders and files) created while walking a
node: its subdirectories and files, recursively.  Each creation consumes one
fresh remote id. -/
def crt : LTree → Nat
  | .node dirs files => dirs.length + files.length + crtL dirs
/-- Total `crt` of a sibling list. -/
def crtL : List (String × LTree) → Nat
  | [] => 0
  | (_, sub) :: rest => crt sub + crtL rest
end

/-- This level's own `dir_ids` key insertions, in reverse processing order
(most recent insertion first, mirroring Python dict insertion stacked as a
cons list). -/
def iKeysRev (path : String) (nid : Nat) :
    List (String × LTree) → List (String × Nat)
  | [] => []
  | (n, _) :: rest =>
    iKeysRev path (nid + 1) rest ++ [(path ++ "/" ++ n, nid)]

mutual
/-- Modelled from the spec: the call trace a successful walk must produce
for the node at `path` whose remote folder has id `pid`, when the next
fresh remote id is `nid` — exactly one folder-creation call per
subdirectory and then exactly one upload call per file, siblings in
lexicographic name order, followed by the traces of the subdirectories in
the same order (every creation preceding all operations on the directory's
contents).  The i-th sorted subdirectory receives id `nid + i`; the walk of
the children starts after `dirs.length + files.length` ids have been
consumed at this level.  The fuel argument only makes the mutual recursion
structural, exactly as in `walkNodeF`; the wrapper `nTrace` passes `t.sz`,
which always suffices. -/
def nTraceF : Nat → String → Nat → Nat → LTree → List Call
  | 0, _, _, _, _ => []
  | fuel + 1, path, pid, nid, .node dirs files =>
    (sortPairs dirs).map (fun q => Call.createCall q.1 pid)
      ++ (sortPairs files).map
          (fun q => Call.uploadCall (path ++ "/" ++ q.1) pid)
      ++ nTraceLF fuel path nid (nid + dirs.length + files.length)
          (sortPairs dirs)
/-- Traces of the subdirectories in order; the head child's folder has id
`cid` and its walk starts at fresh id `nid`. -/
def nTraceLF : Nat → String → Nat → Nat → List (String × LTree) → List Call
  | 0, _, _, _, _ => []
  | _ + 1, _, _, _, [] => []
  | fuel + 1, path, cid, nid, (n, sub) :: rest =>
    nTraceF fuel (path ++ "/" ++ n) cid nid sub
      ++ nTraceLF fuel path (cid + 1) (nid + crt sub) rest
end

mutual
/-- The `dir_ids` insertions of a successful walk of the node at `path`,
with `nid` the next fresh remote id: the children's subtree insertions
(last child on top) over this level's own keys in reverse processing
order.  Fuelled exactly like `walkNodeF`. -/
def iKeysF : Nat → String → Nat → LTree → List (String × Nat)
  | 0, _, _, _ => []
  | fuel + 1, path, nid, .node dirs files =>
    iKeysLF fuel path (nid + dirs.length + files.length) (sortPairs dirs)
      ++ iKeysRev path nid (sortPairs dirs)
/-- Subtree insertions of the children in order, later children on top;
`nid` is the fresh-id base at which the head child's walk starts. -/
def iKeysLF : Nat → String → Nat →
    List (String × LTree) → List (String × Nat)
  | 0, _, _, _ => []
  | _ + 1, _, _, [] => []
  | fuel + 1, path, nid, (n, sub) :: rest =>
    iKeysLF fuel path (nid + crt sub) rest
      ++ iKeysF fuel (path ++ "/" ++ n) nid sub
end

/-- The folder-loop postcondition on the id map: the keys of the sibling
list `l` are mapped to the consecutive ids `cid`, `cid + 1`, …. -/
def keyed (path : String) : Nat → List (String × Nat) →
    List (String × LTree) → Prop
  | _, _, [] => True
  | cid, d, (n, _) :: rest =>
    lookupKey (path ++ "/" ++ n) d = some cid ∧ keyed path (cid + 1) d rest

mutual
/-- Two local trees with the same contents up to the enumeration order of
siblings (the order `os.scandir` happens to return): pointwise-related
subdirectory lists up to permutation, and file lists up to permutation. -/
inductive TreePerm : LTree → LTree → Prop where
  | node {ds mid ds' : List (String × LTree)} {fs fs' : List (String × Nat)} :
      ForestPtw ds mid → mid.Perm ds' → fs.Perm fs' →
      TreePerm (.node ds fs) (.node ds' fs')
/-- Pointwise `TreePerm` of sibling lists, names kept. -/
inductive ForestPtw : List (String × LTree) → List (String × LTree) → Prop
    where
  | nil : ForestPtw [] []
  | cons {n : String} {t t' : LTree} {r r' : List (String × LTree)} :
      TreePerm t t' → ForestPtw r r' → ForestPtw ((n, t) :: r) ((n, t') :: r')
end

/-- `a ≤ x₁ ≤ x₂ ≤ ... ≤ b`: the observation points of the progress counter
form a bounded non-decreasing chain. -/
def leChain : Nat → List Nat → Nat → Prop
  | a, [], b => a ≤ b
  | a, x :: xs, b => a ≤ x ∧ leChain x xs b

/-- The uploaded-size values carried by the progress events of a list, in
order of emission. -/
def prgSizes (l : List Event) : List Nat :=
  l.filterMap (fun ev => match ev with
    | .progress _ _ us _ => some us
    | _ => none)

/-- A small concrete tree used by the walk witnesses: `src/{a/, b/y(2), x(5)}`
with sibling lists deliberately out of order. -/
def tEx : LTree :=
  .node [("b", .node [] [("y", 2)]), ("a", .node [] [])] [("x", 5)]

/-- A system whose root already contains a folder named `src` (used to
exhibit the fatal root-level name clash of C6). -/
def sysClash : Sys := ⟨⟨[⟨1, "src", "FOLDER", 0, 0⟩], 2⟩, []⟩

/-! ## Enumeration-order independence: sorted lists and `TreePerm` -/

/-- Pointwise relatedness of sibling directory entries: same name,
contents equal up to enumeration order. -/
def tpRel (a b : String × LTree) : Prop := a.1 = b.1 ∧ TreePerm a.2 b.2

/-- `tEx` with both sibling lists enumerated in a different order. -/
def tEx2 : LTree :=
  .node [("a", .node [] []), ("b", .node [] [("y", 2)])] [("x", 5)]

/-- A remote state whose root already holds a FILE named `src`. -/
def sysFileClash : Sys := ⟨⟨[⟨1, "src", "FILE", 7, 0⟩], 2⟩, []⟩

/-! # Theorems -/

/-- The worker ignores the exact fuel value once it covers the input length. -/
theorem rAll_fuel_irrel (old new : List Char) :
    ∀ f₁ : Nat, ∀ s : List Char, ∀ f₂ : Nat, s.length ≤ f₁ → s.length ≤ f₂ →
      rAll old new f₁ s = rAll old new f₂ s := by
  intro f₁
  induction f₁ with
  | zero =>
    intro s f₂ h₁ _
    cases s with
    | nil => cases f₂ <;> rfl
    | cons c rest => simp at h₁
  | succ f ih =>
    intro s f₂ h₁ h₂
    cases s with
    | nil => cases f₂ <;> rfl
    | cons c rest =>
      cases f₂ with
      | zero => simp at h₂
      | succ f' =>
        have hr : rest.length ≤ f := by simpa using h₁
        have hr' : rest.length ≤ f' := by simpa using h₂
        by_cases he : old.isEmpty = true
        · rw [show rAll old new (f + 1) (c :: rest)
              = new ++ c :: rAll old new f rest from by simp [rAll, he]]
          rw [show rAll old new (f' + 1) (c :: rest)
              = new ++ c :: rAll old new f' rest from by simp [rAll, he]]
          rw [ih rest f' hr hr']
        · have he' : old.isEmpty = false := by simpa using he
          have hone : 1 ≤ old.length := by
            cases old with
            | nil => simp at he'
            | cons _ _ => simp
          by_cases hp : old.isPrefixOf (c :: rest) = true
          · have hd : ((c :: rest).drop old.length).length ≤ f := by
              simp only [List.length_drop, List.length_cons]
              omega
            have hd' : ((c :: rest).drop old.length).length ≤ f' := by
              simp only [List.length_drop, List.length_cons]
              omega
            rw [show rAll old new (f + 1) (c :: rest)
                = new ++ rAll old new f ((c :: rest).drop old.length) from by
              simp [rAll, he', hp]]
            rw [show rAll old new (f' + 1) (c :: rest)
                = new ++ rAll old new f' ((c :: rest).drop old.length) from by
              simp [rAll, he', hp]]
            rw [ih _ _ hd hd']
          · have hp' : old.isPrefixOf (c :: rest) = false := by
              rw [Bool.eq_false_iff]
              exact hp
            rw [show rAll old new (f + 1) (c :: rest)
                = c :: rAll old new f rest from by simp [rAll, he', hp']]
            rw [show rAll old new (f' + 1) (c :: rest)
                = c :: rAll old new f' rest from by simp [rAll, he', hp']]
            rw [ih rest f' hr hr']

/-! ## Basic facts about the gateway operations -/

theorem find?_filter {α : Type} (l : List α) (q r : α → Bool) :
    (l.filter q).find? r = l.find? (fun a => q a && r a) := by
  induction l with
  | nil => rfl
  | cons a t ih =>
    by_cases hq : q a = true
    · by_cases hr : r a = true
      · simp only [List.filter_cons, if_pos hq, List.find?, hq, hr, Bool.and_self]
      · have hr' : r a = false := by rw [Bool.eq_false_iff]; exact hr
        simp only [List.filter_cons, if_pos hq, List.find?, hq, hr',
          Bool.and_false, ih]
    · have hq' : q a = false := by rw [Bool.eq_false_iff]; exact hq
      simp only [List.filter_cons, hq', Bool.false_eq_true, if_false,
        List.find?, Bool.false_and, ih]

theorem find?_eq_head?_filter {α : Type} (l : List α) (q : α → Bool) :
    l.find? q = (l.filter q).head? := by
  induction l with
  | nil => rfl
  | cons a t ih =>
    by_cases hq : q a = true
    · simp [List.find?, hq, List.filter_cons]
    · have hq' : q a = false := by rw [Bool.eq_false_iff]; exact hq
      simp only [List.find?, hq', List.filter_cons, Bool.false_eq_true,
        if_false, ih]

/-- `create_folder` in closed form: a clash yields `NameClashError` and
leaves the filesystem unchanged; otherwise the fresh folder entry is
appended. -/
theorem create_folder_eq (s : Sys) (n : String) (p : Nat) :
    create_folder s n p =
      if s.fs.clash n p
      then (.error (.nameClash n p),
            { s with calls := s.calls ++ [.createCall n p] })
      else (.ok ⟨s.fs.nextId, n, "FOLDER", 0, p⟩,
            ⟨⟨s.fs.entries ++ [⟨s.fs.nextId, n, "FOLDER", 0, p⟩],
              s.fs.nextId + 1⟩,
             s.calls ++ [.createCall n p]⟩) := by
  simp only [create_folder, apiCreateFolder]
  by_cases h : s.fs.clash n p
  · rw [if_pos h, if_pos h]; rfl
  · rw [if_neg h, if_neg h]; rfl

/-- `get_folder` in closed form: the first entry of the parent with the
wanted name and kind FOLDER. -/
theorem get_folder_eq (s : Sys) (n : String) (p : Nat) :
    get_folder s n p =
      (s.fs.entries.find?
        (fun e => (e.parent == p) && (e.name == n && e.file_type == "FOLDER")),
       { s with calls := s.calls ++ [.listCall p] }) := by
  simp only [get_folder, apiList]
  rw [find?_filter]

/-- The component loops of code and spec agree on every state. -/
theorem get_target_id_go_eq_resolve_go :
    ∀ comps : List String, ∀ p : Nat, ∀ s : Sys,
      get_target_id_go comps p s = resolve_go comps p s := by
  intro comps
  induction comps with
  | nil => intro p s; rfl
  | cons c rest ih =>
    intro p s
    have hfil : ∀ s' : Sys, s'.fs.entries.find?
          (fun e => (e.parent == p) && (e.name == c && e.file_type == "FOLDER"))
        = ((s'.fs.entries.filter (fun e => e.parent == p)).filter
            (fun f => f.file_type == "FOLDER" && f.name == c)).head? := by
      intro s'
      rw [find?_eq_head?_filter, List.filter_filter]
      congr 1
      apply List.filter_congr
      intro x _
      rcases Bool.eq_false_or_eq_true (x.parent == p) with h1 | h1 <;>
        rcases Bool.eq_false_or_eq_true (x.name == c) with h2 | h2 <;>
        rcases Bool.eq_false_or_eq_true (x.file_type == "FOLDER") with h3 | h3 <;>
        simp [h1, h2, h3]
    rcases hcf : create_folder s c p with ⟨r, s'⟩
    rcases r with e | folder
    · rcases e with ⟨n, q⟩ | ⟨n, q⟩ | ctx | k
      · rcases hl : (s'.fs.entries.filter (fun e => e.parent == p)).filter
            (fun f => f.file_type == "FOLDER" && f.name == c) with _ | ⟨found, t⟩
        · simp [get_target_id_go, resolve_go, hcf, get_folder_eq, hfil s', hl,
            apiList]
        · simp [get_target_id_go, resolve_go, hcf, get_folder_eq, hfil s', hl,
            apiList, ih]
      · simp [get_target_id_go, resolve_go, hcf]
      · simp [get_target_id_go, resolve_go, hcf]
      · simp [get_target_id_go, resolve_go, hcf]
    · simp [get_target_id_go, resolve_go, hcf, ih]

/-! ## Claim C3: target resolution matches the spec's algorithm -/

/-- Counterexample to C3 as stated: `--target ""` is falsy in Python, so the
code returns the root id 0 without issuing any remote call, whereas the
claimed algorithm ("otherwise it splits target on '/' ...") would attempt
`create_folder("", 0)` — `"".split("/") == [""]`. -/
theorem claim_C3_counterexample :
    get_target_id sys0 (some "") = (.ok 0, sys0) ∧
    resolve_target_spec sys0 (some "") =
      (.ok 1, ⟨⟨[⟨1, "", "FOLDER", 0, 0⟩], 2⟩, [.createCall "" 0]⟩) ∧
    resolve_target_spec sys0 (some "") ≠ (.ok 0, sys0) := by
  refine ⟨by decide, by decide, by decide⟩

/-- C3 amended: `get_target_id` returns the root id 0 when `target` is
absent OR empty (Python falsiness); for every other target it behaves
exactly as the spec's resolution algorithm: split on `/`, attempt
`create_folder` per component, on NameClash reuse the id of the existing
FOLDER child of that name, fail with `NameClashWithFile(component, parent)`
when the clash is with a file, and return the final component's id, parents
chained (`a/b/c` from an empty account creates ids 1, 2, 3 under parents
0, 1, 2 and returns 3). -/
theorem claim_C3_get_target_id :
    (∀ s : Sys, get_target_id s none = (.ok 0, s))
    ∧ (∀ (s : Sys) (target : Option String), target ≠ some "" →
        get_target_id s target = resolve_target_spec s target)
    ∧ get_target_id sys0 (some "a/b/c") =
        (.ok 3,
         ⟨⟨[⟨1, "a", "FOLDER", 0, 0⟩, ⟨2, "b", "FOLDER", 0, 1⟩,
            ⟨3, "c", "FOLDER", 0, 2⟩], 4⟩,
          [.createCall "a" 0, .createCall "b" 1, .createCall "c" 2]⟩) := by
  refine ⟨fun s => rfl, ?_, by decide⟩
  intro s target hne
  match target with
  | none => rfl
  | some t =>
    have ht : ¬(t = "") := fun h => hne (by rw [h])
    simp only [get_target_id, resolve_target_spec, if_neg ht]
    exact get_target_id_go_eq_resolve_go (splitSlash t) 0 s

/-- Witness for the amended C3 at a concrete non-empty target. -/
theorem claim_C3_get_target_id_witness :
    get_target_id sys0 (some "x/y") = resolve_target_spec sys0 (some "x/y") :=
  claim_C3_get_target_id.2.1 sys0 (some "x/y") (by decide)

/-! ## Claim C8: target resolution is idempotent -/

/-- The resolution loop only ever appends remote entries and calls (it never
deletes or rewrites anything already present). -/
theorem get_target_id_go_mono :
    ∀ (comps : List String) (p : Nat) (s : Sys),
      ∃ (tail : List Entry) (ctail : List Call),
        (get_target_id_go comps p s).2.fs.entries = s.fs.entries ++ tail ∧
        (get_target_id_go comps p s).2.calls = s.calls ++ ctail ∧
        (∀ i, Call.deleteCall i ∉ ctail) ∧
        (∀ k, (get_target_id_go comps p s).1 ≠ .error (.keyError k)) := by
  intro comps
  induction comps with
  | nil =>
    intro p s
    refine ⟨[], [], by simp [get_target_id_go], by simp [get_target_id_go],
      by simp, by simp [get_target_id_go]⟩
  | cons c rest ih =>
    intro p s
    by_cases hcl : s.fs.clash c p
    · cases hfind : s.fs.entries.find?
          (fun e => (e.parent == p) && (e.name == c && e.file_type == "FOLDER")) with
      | none =>
        refine ⟨[], [.createCall c p, .listCall p], ?_, ?_, by simp, ?_⟩ <;>
          simp [get_target_id_go, create_folder_eq, hcl, get_folder_eq, hfind]
      | some f =>
        obtain ⟨tail, ctail, h1, h2, h3, h4⟩ :=
          ih f.id ⟨s.fs, s.calls ++ [.createCall c p] ++ [.listCall p]⟩
        refine ⟨tail, [.createCall c p] ++ [.listCall p] ++ ctail, ?_, ?_, ?_, ?_⟩
        · simp only [get_target_id_go, create_folder_eq, hcl, if_true,
            get_folder_eq, hfind]
          rw [h1]
        · simp only [get_target_id_go, create_folder_eq, hcl, if_true,
            get_folder_eq, hfind]
          rw [h2]
          simp
        · intro i hmem
          rcases List.mem_append.mp hmem with h' | h'
          · rcases List.mem_append.mp h' with h'' | h''
            · simp at h''
            · simp at h''
          · exact h3 i h'
        · intro k
          simp only [get_target_id_go, create_folder_eq, hcl, if_true,
            get_folder_eq, hfind]
          exact h4 k
    · obtain ⟨tail, ctail, h1, h2, h3, h4⟩ :=
        ih s.fs.nextId
          ⟨⟨s.fs.entries ++ [⟨s.fs.nextId, c, "FOLDER", 0, p⟩], s.fs.nextId + 1⟩,
           s.calls ++ [.createCall c p]⟩
      refine ⟨⟨s.fs.nextId, c, "FOLDER", 0, p⟩ :: tail,
              [.createCall c p] ++ ctail, ?_, ?_, ?_, ?_⟩
      · simp only [get_target_id_go, create_folder_eq, hcl, Bool.false_eq_true,
          if_false]
        rw [h1]
        simp
      · simp only [get_target_id_go, create_folder_eq, hcl, Bool.false_eq_true,
          if_false]
        rw [h2]
        simp
      · intro i hmem
        rcases List.mem_append.mp hmem with h' | h'
        · simp at h'
        · exact h3 i h'
      · intro k
        simp only [get_target_id_go, create_folder_eq, hcl, Bool.false_eq_true,
          if_false]
        exact h4 k

/-- Re-running a successful resolution from the resulting state returns the
same id and changes nothing remotely (only create-attempt and list calls are
added to the log). -/
theorem get_target_id_go_idem :
    ∀ (comps : List String) (p : Nat) (s : Sys) (id : Nat) (s₁ : Sys),
      get_target_id_go comps p s = (.ok id, s₁) →
      ∀ cs : List Call, ∃ ctail,
        get_target_id_go comps p ⟨s₁.fs, cs⟩ = (.ok id, ⟨s₁.fs, cs ++ ctail⟩) := by
  intro comps
  induction comps with
  | nil =>
    intro p s id s₁ h cs
    simp only [get_target_id_go, Prod.mk.injEq, Except.ok.injEq] at h
    obtain ⟨h1, h2⟩ := h
    subst h1
    subst h2
    exact ⟨[], by simp [get_target_id_go]⟩
  | cons c rest ih =>
    intro p s id s₁ h cs
    by_cases hcl : s.fs.clash c p
    · cases hfind : s.fs.entries.find?
          (fun e => (e.parent == p) && (e.name == c && e.file_type == "FOLDER")) with
      | none =>
        simp [get_target_id_go, create_folder_eq, hcl, get_folder_eq, hfind] at h
      | some f =>
        simp only [get_target_id_go, create_folder_eq, hcl, if_true,
          get_folder_eq, hfind] at h
        obtain ⟨tail, ctail, h1, h2⟩ :=
          get_target_id_go_mono rest f.id
            ⟨s.fs, s.calls ++ [.createCall c p] ++ [.listCall p]⟩
        rw [h] at h1
        have hcl₁ : s₁.fs.clash c p = true := by
          simp only [Remote.clash] at hcl ⊢
          rw [h1]
          simp only [List.any_append]
          simp [hcl]
        have hfind₁ : s₁.fs.entries.find?
            (fun e => (e.parent == p) && (e.name == c && e.file_type == "FOLDER"))
            = some f := by
          rw [h1, List.find?_append, hfind]
          rfl
        obtain ⟨ctail₂, hrun⟩ := ih f.id _ id s₁ h (cs ++ [.createCall c p] ++ [.listCall p])
        refine ⟨[.createCall c p] ++ [.listCall p] ++ ctail₂, ?_⟩
        simp only [get_target_id_go, create_folder_eq, hcl₁, if_true,
          get_folder_eq, hfind₁]
        rw [hrun]
        simp
    · simp only [get_target_id_go, create_folder_eq, hcl, Bool.false_eq_true,
          if_false] at h
      obtain ⟨tail, ctail, h1, h2⟩ :=
        get_target_id_go_mono rest s.fs.nextId
          ⟨⟨s.fs.entries ++ [⟨s.fs.nextId, c, "FOLDER", 0, p⟩], s.fs.nextId + 1⟩,
           s.calls ++ [.createCall c p]⟩
      rw [h] at h1
      have hnew : s₁.fs.entries
          = s.fs.entries ++ [⟨s.fs.nextId, c, "FOLDER", 0, p⟩] ++ tail := h1
      have hcl₁ : s₁.fs.clash c p = true := by
        simp only [Remote.clash, hnew, List.any_append]
        simp [List.any_cons]
      have hfind₁ : s₁.fs.entries.find?
          (fun e => (e.parent == p) && (e.name == c && e.file_type == "FOLDER"))
          = some ⟨s.fs.nextId, c, "FOLDER", 0, p⟩ := by
        have hclf : s.fs.clash c p = false := by
          rw [Bool.eq_false_iff]
          exact hcl
        simp only [Remote.clash, List.any_eq_false] at hclf
        have hnone : s.fs.entries.find?
            (fun e => (e.parent == p) && (e.name == c && e.file_type == "FOLDER"))
            = none := by
          rw [List.find?_eq_none]
          intro x hx hbad
          have hsmall := hclf x hx
          simp only [Bool.and_eq_true, beq_iff_eq] at hbad
          simp only [Bool.and_eq_true, beq_iff_eq, not_and] at hsmall
          exact hsmall hbad.1 hbad.2.1
        rw [hnew, List.find?_append, List.find?_append, hnone]
        simp [List.find?, Option.or]
      obtain ⟨ctail₂, hrun⟩ := ih s.fs.nextId _ id s₁ h (cs ++ [.createCall c p] ++ [.listCall p])
      refine ⟨[.createCall c p] ++ [.listCall p] ++ ctail₂, ?_⟩
      simp only [get_target_id_go, create_folder_eq, hcl₁, if_true,
        get_folder_eq, hfind₁]
      rw [hrun]
      simp

/-- C8: target resolution is idempotent — re-running a successful resolution
from the resulting remote state returns the same final id, errors on
nothing, and changes no remote entry (only create-attempt and list calls are
issued); and when a prefix of the path already exists, exactly the missing
suffix is created: resolving `a/b/c` where `a`, `b` exist reuses ids 1 and 2
and creates only `c`. -/
theorem claim_C8_resolution_idempotent :
    (∀ (s : Sys) (target : Option String) (id : Nat) (s₁ : Sys),
      get_target_id s target = (.ok id, s₁) →
      ∃ ctail, get_target_id s₁ target = (.ok id, ⟨s₁.fs, s₁.calls ++ ctail⟩))
    ∧ get_target_id sysPre (some "a/b/c") =
        (.ok 3,
         ⟨⟨[⟨1, "a", "FOLDER", 0, 0⟩, ⟨2, "b", "FOLDER", 0, 1⟩,
            ⟨3, "c", "FOLDER", 0, 2⟩], 4⟩,
          [.createCall "a" 0, .listCall 0, .createCall "b" 1, .listCall 1,
           .createCall "c" 2]⟩) := by
  refine ⟨?_, by decide⟩
  intro s target id s₁ h
  match target with
  | none =>
    have h' : ((Except.ok 0 : Except Err Nat), s) = (.ok id, s₁) := h
    have ha : (0 : Nat) = id := Except.ok.inj (congrArg Prod.fst h')
    have hb : s = s₁ := congrArg Prod.snd h'
    subst ha
    subst hb
    exact ⟨[], by simp [get_target_id]⟩
  | some t =>
    by_cases ht : t = ""
    · subst ht
      have h' : ((Except.ok 0 : Except Err Nat), s) = (.ok id, s₁) := h
      have ha : (0 : Nat) = id := Except.ok.inj (congrArg Prod.fst h')
      have hb : s = s₁ := congrArg Prod.snd h'
      subst ha
      subst hb
      exact ⟨[], by simp [get_target_id]⟩
    · simp only [get_target_id, if_neg ht] at h ⊢
      obtain ⟨ctail, hrun⟩ := get_target_id_go_idem (splitSlash t) 0 s id s₁ h s₁.calls
      exact ⟨ctail, hrun⟩

/-- Witness for C8 at a concrete state: after resolving `a/b` from an empty
account, resolving it again yields the same id 2 with the same remote
state. -/
theorem claim_C8_resolution_idempotent_witness :
    ∃ ctail,
      get_target_id
        ⟨⟨[⟨1, "a", "FOLDER", 0, 0⟩, ⟨2, "b", "FOLDER", 0, 1⟩], 3⟩,
         [.createCall "a" 0, .createCall "b" 1]⟩ (some "a/b")
      = (.ok 2,
         ⟨⟨[⟨1, "a", "FOLDER", 0, 0⟩, ⟨2, "b", "FOLDER", 0, 1⟩], 3⟩,
          [.createCall "a" 0, .createCall "b" 1] ++ ctail⟩) :=
  claim_C8_resolution_idempotent.1 sys0 (some "a/b") 2
    ⟨⟨[⟨1, "a", "FOLDER", 0, 0⟩, ⟨2, "b", "FOLDER", 0, 1⟩], 3⟩,
     [.createCall "a" 0, .createCall "b" 1]⟩ (by decide)

/-! ## Claim C7: size humanization -/

/-- C7: `human_size` uses exclusive lower-bound thresholds: above 10^9 it
reports gigabytes with one decimal digit, above 10^6 integer-divided
megabytes, above 10^3 integer-divided kilobytes, otherwise the raw byte
count; and the four documented example values render as stated. -/
theorem claim_C7_human_size :
    (∀ size : Nat,
      (1000000000 < size → ∃ whole tenth : Nat, tenth < 10 ∧
          human_size size = toString whole ++ "." ++ toString tenth ++ " GB")
      ∧ (1000000 < size → size ≤ 1000000000 →
          human_size size = toString (size / 1000000) ++ " MB")
      ∧ (1000 < size → size ≤ 1000000 →
          human_size size = toString (size / 1000) ++ " KB")
      ∧ (size ≤ 1000 → human_size size = toString size ++ " B"))
    ∧ human_size 80 = "80 B"
    ∧ human_size 320480 = "320 KB"
    ∧ human_size 450120000 = "450 MB"
    ∧ human_size 15200000000 = "15.2 GB" := by
  refine ⟨fun size => ⟨?_, ?_, ?_, ?_⟩, by decide, by decide, by decide, by decide⟩
  · intro h
    refine ⟨((size * 10 + 500000000) / 1000000000) / 10,
            ((size * 10 + 500000000) / 1000000000) % 10,
            Nat.mod_lt _ (by omega), ?_⟩
    simp only [human_size, gbFormat]
    rw [if_pos (by omega)]
  · intro h h'
    simp only [human_size]
    rw [if_neg (by omega), if_pos (by omega)]
  · intro h h'
    simp only [human_size]
    rw [if_neg (by omega), if_neg (by omega), if_pos (by omega)]
  · intro h
    simp only [human_size]
    rw [if_neg (by omega), if_neg (by omega), if_neg (by omega)]

/-- Witness for C7: the quantified thresholds are inhabited at concrete
inputs (2 GB exercises the GB clause, 5000 the KB clause). -/
theorem claim_C7_human_size_witness :
    (∃ whole tenth : Nat, tenth < 10 ∧
        human_size 2000000000 = toString whole ++ "." ++ toString tenth ++ " GB")
    ∧ human_size 5000 = toString (5000 / 1000) ++ " KB" :=
  ⟨(claim_C7_human_size.1 2000000000).1 (by decide),
   (claim_C7_human_size.1 5000).2.2.1 (by decide) (by decide)⟩

/-! ## Lemmas about `replaceAll` and `rel_path` (for claim C4) -/

/-- If `old` occurs nowhere in `s`, `replaceAll` leaves `s` unchanged. -/
theorem replaceAll_of_not_contains (old new s : List Char)
    (h : containsSub old s = false) : replaceAll old new s = s := by
  rw [replaceAll]
  have main : ∀ fuel : Nat, ∀ s : List Char, s.length ≤ fuel →
      containsSub old s = false → rAll old new fuel s = s := by
    intro fuel
    induction fuel with
    | zero =>
      intro s hlen hc
      cases s with
      | nil =>
        simp only [containsSub, List.isEmpty_iff] at hc
        simp [rAll, hc]
      | cons c rest => simp at hlen
    | succ f ih =>
      intro s hlen hc
      cases s with
      | nil =>
        simp only [containsSub, List.isEmpty_iff] at hc
        simp [rAll, hc]
      | cons c rest =>
        simp only [containsSub, Bool.or_eq_false_iff] at hc
        have hne : old.isEmpty = false := by
          cases old with
          | nil => simp [List.isPrefixOf] at hc
          | cons o os => rfl
        simp only [rAll, hne, if_false, hc.1, Bool.false_eq_true]
        rw [ih rest (by simpa using hlen) hc.2]
  exact main s.length s (le_refl _) h

/-- `replaceAll` fires on a leading copy of a nonempty pattern. -/
theorem replaceAll_append_left (o : Char) (os new s : List Char) :
    replaceAll (o :: os) new ((o :: os) ++ s) = new ++ replaceAll (o :: os) new s := by
  have hlen : ((o :: os) ++ s).length = (os.length + s.length) + 1 := by
    simp [List.length_append]
  rw [replaceAll, hlen]
  have hpre : (o :: os).isPrefixOf ((o :: os) ++ s) = true :=
    List.isPrefixOf_iff_prefix.mpr ⟨s, rfl⟩
  show rAll (o :: os) new ((os.length + s.length) + 1) (o :: (os ++ s)) = _
  simp only [rAll, List.isEmpty, if_false]
  rw [show (o :: (os ++ s)) = (o :: os) ++ s from rfl, if_pos hpre]
  rw [List.drop_left (o :: os) s]
  rw [rAll_fuel_irrel _ _ _ s s.length (by omega) (le_refl _)]
  rfl

/-- `replaceAll` steps over a character that cannot start a match. -/
theorem replaceAll_cons_of_ne (o : Char) (os new : List Char) (c : Char)
    (rest : List Char) (h : o ≠ c) :
    replaceAll (o :: os) new (c :: rest) = c :: replaceAll (o :: os) new rest := by
  have hnp : (o :: os).isPrefixOf (c :: rest) = false := by
    simp only [List.isPrefixOf, Bool.and_eq_false_iff]
    left
    simpa using h
  rw [replaceAll]
  show rAll (o :: os) new (rest.length + 1) (c :: rest) = _
  simp only [rAll, List.isEmpty, if_false, hnp, Bool.false_eq_true]
  rfl

theorem dropPre_append (pre s : List Char) : dropPre pre (pre ++ s) = s := by
  rw [dropPre, if_pos (List.isPrefixOf_iff_prefix.mpr ⟨s, rfl⟩)]
  exact List.drop_left pre s

theorem takeWhile_append_of_head_false (a b : List Char) (p : Char → Bool)
    (ha : ∀ c ∈ a, p c = true) (hb : ∀ h : b ≠ [], p (b.head h) = false) :
    (a ++ b).takeWhile p = a := by
  induction a with
  | nil =>
    cases b with
    | nil => rfl
    | cons c rest =>
      have hc : p c = false := hb (by simp)
      simp [List.takeWhile_cons, hc]
  | cons c rest ih =>
    have hc : p c = true := ha c (by simp)
    simp [List.takeWhile_cons, hc, ih (fun x hx => ha x (by simp [hx]))]

/-! ## Claim C4: reported event paths (`rel_path`)

core.py computes the reported path as
`path.removeprefix(source_prefix).replace(base, name)` where `base` is the
leading component.  Python `str.replace` rewrites EVERY occurrence of `base`
in the relative path, not just the leading component, so a later component
equal to (or containing) the source's base name is rewritten too.  The claim
as stated ("all other components of the path are reported unchanged") is
therefore false; it holds exactly when the base name does not reoccur as a
substring of the remainder. -/

/-- Counterexample to C4 as stated: uploading source `t/a` under the name
`new`, the node at relative path `a/b/a` is reported as `new/b/new` — the
last component `a` is also rewritten — whereas the claim mandates
`new/b/a`. -/
theorem claim_C4_counterexample :
    rel_path "t/a/b/a" "new" "t/" = "new/b/new" ∧
    rel_path "t/a/b/a" "new" "t/" ≠ "new/b/a" := by
  constructor <;> decide

/-- C4 amended: the reported path is the path relative to `source` with every
occurrence of the base-name text replaced by `name`; in particular, whenever
the leading component does not reoccur as a substring of the remainder, only
the leading component is rewritten and all other components are reported
unchanged. -/
theorem claim_C4_rel_path_amended (pre base rest name : String)
    (hne : base.data ≠ [])
    (hslash : ∀ c ∈ base.data, c ≠ '/')
    (hnodup : containsSub base.data rest.data = false) :
    rel_path (pre ++ base ++ "/" ++ rest) name pre = name ++ "/" ++ rest := by
  apply String.ext
  have hdata : (pre ++ base ++ "/" ++ rest).data
      = pre.data ++ (base.data ++ '/' :: rest.data) := by
    simp [String.data_append]
  cases hbase : base.data with
  | nil => exact absurd hbase hne
  | cons o os =>
    simp only [rel_path, hdata, hbase]
    rw [dropPre_append]
    rw [takeWhile_append_of_head_false (o :: os) ('/' :: rest.data) _
      (fun c hc => by
        have := hslash c (by rw [hbase]; exact hc)
        simp [this])
      (fun h => by simp)]
    rw [replaceAll_append_left]
    rw [replaceAll_cons_of_ne _ _ _ _ _
      (by exact hslash o (by rw [hbase]; simp))]
    rw [replaceAll_of_not_contains _ _ _ (by rw [← hbase]; exact hnodup)]
    simp [String.data_append]

/-- Witness for the amended C4 at a concrete input. -/
theorem claim_C4_rel_path_amended_witness :
    rel_path "t/a/b/c" "new" "t/" = "new/b/c" :=
  claim_C4_rel_path_amended "t/" "a" "b/c" "new" (by decide) (by decide) (by decide)

theorem clLe_antisymm : ∀ a b : List Char,
    clLe a b = true → clLe b a = true → a = b := by
  intro a
  induction a with
  | nil =>
    intro b _ hba
    cases b with
    | nil => rfl
    | cons y ys => simp [clLe] at hba
  | cons x xs ih =>
    intro b hab hba
    cases b with
    | nil => simp [clLe] at hab
    | cons y ys =>
      simp only [clLe] at hab hba
      by_cases hxy : x.toNat < y.toNat
      · rw [if_neg (by omega), if_pos hxy] at hba
        exact absurd hba (by simp)
      · by_cases hyx : y.toNat < x.toNat
        · rw [if_pos hyx] at hba
          rw [if_neg hxy, if_pos hyx] at hab
          exact absurd hab (by simp)
        · rw [if_neg hxy, if_neg hyx] at hab
          rw [if_neg hyx, if_neg hxy] at hba
          have hn : x.toNat = y.toNat := by omega
          have hchar : x = y := Char.ext (UInt32.ext hn)
          rw [hchar, ih ys hab hba]

theorem sortPairs_perm {α : Type} (l : List (String × α)) :
    (sortPairs l).Perm l :=
  List.perm_insertionSort nameLe l

/-- `szl` only depends on the multiset of siblings (sorting keeps it). -/
theorem szl_perm {l₁ l₂ : List (String × LTree)} (h : l₁.Perm l₂) :
    szl l₁ = szl l₂ := by
  induction h with
  | nil => rfl
  | cons x _ ih => simp [szl, ih]
  | swap x y l => simp [szl]; omega
  | trans _ _ ih₁ ih₂ => exact ih₁.trans ih₂

theorem szl_sortPairs (l : List (String × LTree)) : szl (sortPairs l) = szl l :=
  szl_perm (sortPairs_perm l)

theorem totalCountL_perm {l₁ l₂ : List (String × LTree)} (h : l₁.Perm l₂) :
    totalCountL l₁ = totalCountL l₂ := by
  induction h with
  | nil => rfl
  | cons x _ ih => simp [totalCountL, ih]
  | swap x y l => simp [totalCountL]; omega
  | trans _ _ ih₁ ih₂ => exact ih₁.trans ih₂

theorem totalSizeL_perm {l₁ l₂ : List (String × LTree)} (h : l₁.Perm l₂) :
    totalSizeL l₁ = totalSizeL l₂ := by
  induction h with
  | nil => rfl
  | cons x _ ih => simp [totalSizeL, ih]
  | swap x y l => simp [totalSizeL]; omega
  | trans _ _ ih₁ ih₂ => exact ih₁.trans ih₂

/-! ## Shape of a walk: utilities -/

/-- With `force = false` the spec-modelled `create_folder` coincides with the
plain gateway `create_folder` of src/core.py. -/
theorem create_folder_f_false (s : Sys) (n : String) (p : Nat) :
    create_folder_f s n p false = create_folder s n p := by
  rw [create_folder_f]
  rw [create_folder_eq]
  by_cases h : s.fs.clash n p
  · rw [if_pos h]
    rfl
  · rw [if_neg h]

/-- A present dict key stays present when entries are stacked on top. -/
theorem lookupKey_isSome_append (k : String) (ins l : List (String × Nat))
    (h : (lookupKey k l).isSome) : (lookupKey k (ins ++ l)).isSome := by
  induction ins with
  | nil => exact h
  | cons q rest ih =>
    by_cases hq : q.1 = k
    · simp [lookupKey, hq]
    · simpa [lookupKey, hq] using ih

theorem leChain_comp {a m b : Nat} {P₁ P₂ : List Nat} :
    leChain a P₁ m → leChain m P₂ b → leChain a (P₁ ++ P₂) b := by
  intro h₁ h₂
  induction P₁ generalizing a with
  | nil =>
    cases P₂ with
    | nil => exact le_trans h₁ h₂
    | cons y ys => exact ⟨le_trans h₁ h₂.1, h₂.2⟩
  | cons x xs ih => exact ⟨h₁.1, ih h₁.2⟩

theorem leChain_le {a b : Nat} {P : List Nat} (h : leChain a P b) :
    a ≤ b ∧ ∀ x ∈ P, a ≤ x ∧ x ≤ b := by
  induction P generalizing a with
  | nil => exact ⟨h, by simp⟩
  | cons x xs ih =>
    obtain ⟨hax, hrest⟩ := h
    obtain ⟨hxb, hall⟩ := ih hrest
    refine ⟨le_trans hax hxb, ?_⟩
    intro y hy
    rcases List.mem_cons.mp hy with rfl | hy'
    · exact ⟨hax, hxb⟩
    · obtain ⟨h1, h2⟩ := hall y hy'
      exact ⟨le_trans hax h1, h2⟩

theorem leChain_pairwise {a b : Nat} {P : List Nat} (h : leChain a P b) :
    P.Pairwise (· ≤ ·) := by
  induction P generalizing a with
  | nil => exact List.Pairwise.nil
  | cons x xs ih =>
    obtain ⟨_, hrest⟩ := h
    exact List.Pairwise.cons (fun y hy => ((leChain_le hrest).2 y hy).1) (ih hrest)

theorem prgSizes_append (l₁ l₂ : List Event) :
    prgSizes (l₁ ++ l₂) = prgSizes l₁ ++ prgSizes l₂ :=
  List.filterMap_append l₁ l₂ _

theorem prgSizes_eq_nil {evs : List Event}
    (h : ∀ ev ∈ evs, ∀ uc tc us ts, ev ≠ Event.progress uc tc us ts) :
    prgSizes evs = [] := by
  induction evs with
  | nil => rfl
  | cons ev rest ih =>
    cases ev with
    | progress uc tc us ts => exact absurd rfl (h _ (by simp) uc tc us ts)
    | folderCreated p =>
      simp only [prgSizes, List.filterMap_cons]
      exact ih (fun e he => h e (by simp [he]))
    | fileUploaded p =>
      simp only [prgSizes, List.filterMap_cons]
      exact ih (fun e he => h e (by simp [he]))

/-- Shape of the files loop: it only appends entries, calls and events,
never touches the map, bumps the counters by exactly the sizes it uploads,
and — when the parent key is present — always succeeds, having uploaded
every file.  Every emitted progress event carries the pre-scanned totals and
a running size that stays within the chain of counter values. -/
theorem walkFiles_shape (cx : Ctx) (path : String) :
    ∀ (l : List (String × Nat)) (w : WSt),
      ∃ (tail : List Entry) (ctail : List Call) (evs : List Event),
        (walkFiles cx path l w).2.sys.fs.entries = w.sys.fs.entries ++ tail ∧
        (walkFiles cx path l w).2.sys.calls = w.sys.calls ++ ctail ∧
        (∀ i, Call.deleteCall i ∉ ctail) ∧
        (walkFiles cx path l w).2.dir_ids = w.dir_ids ∧
        (walkFiles cx path l w).2.events = w.events ++ evs ∧
        (walkFiles cx path l w).2.uploaded_count ≤ w.uploaded_count + l.length ∧
        (walkFiles cx path l w).2.uploaded_size
          ≤ w.uploaded_size + (l.map Prod.snd).sum ∧
        w.uploaded_size ≤ (walkFiles cx path l w).2.uploaded_size ∧
        leChain w.uploaded_size (prgSizes evs)
          (walkFiles cx path l w).2.uploaded_size ∧
        (∀ ev ∈ evs, ∀ uc tc us ts, ev = .progress uc tc us ts →
          tc = cx.total_count ∧ ts = cx.total_size) ∧
        ((lookupKey path w.dir_ids).isSome →
          (walkFiles cx path l w).1 = .ok () ∧
          (walkFiles cx path l w).2.uploaded_count = w.uploaded_count + l.length ∧
          (walkFiles cx path l w).2.uploaded_size
            = w.uploaded_size + (l.map Prod.snd).sum) ∧
        ((walkFiles cx path l w).1 = .ok () →
          (walkFiles cx path l w).2.uploaded_count = w.uploaded_count + l.length ∧
          (walkFiles cx path l w).2.uploaded_size
            = w.uploaded_size + (l.map Prod.snd).sum) := by
  intro l
  induction l with
  | nil =>
    intro w
    exact ⟨[], [], [], by simp [walkFiles, prgSizes, leChain]⟩
  | cons q rest ih =>
    intro w
    obtain ⟨n, fsize⟩ := q
    cases hlk : lookupKey path w.dir_ids with
    | none =>
      refine ⟨[], [], [], ?_⟩
      simp only [walkFiles, hlk]
      simp [prgSizes, leChain, hlk]
    | some pid =>
      set w' : WSt :=
        { w with
          sys := (upload_file w.sys (path ++ "/" ++ n) n fsize pid).2,
          uploaded_count := w.uploaded_count + 1,
          uploaded_size := w.uploaded_size + fsize,
          events := w.events
            ++ [.fileUploaded (rel_path (path ++ "/" ++ n) cx.name cx.srcPre),
                .progress (w.uploaded_count + 1) cx.total_count
                  (w.uploaded_size + fsize) cx.total_size] } with hw'
      have hstep : walkFiles cx path ((n, fsize) :: rest) w
          = walkFiles cx path rest w' := by
        simp only [walkFiles, hlk]
        rfl
      obtain ⟨tail, ctail, evs, he, hc, hnd, hd, hev, huc, hus, hmono, hchain,
        hprg, hok, hok2⟩ := ih w'
      refine ⟨⟨w.sys.fs.nextId, n, "FILE", fsize, pid⟩ :: tail,
              .uploadCall (path ++ "/" ++ n) pid :: ctail,
              .fileUploaded (rel_path (path ++ "/" ++ n) cx.name cx.srcPre)
                :: .progress (w.uploaded_count + 1) cx.total_count
                     (w.uploaded_size + fsize) cx.total_size :: evs,
              ?_, ?_, ?_, ?_, ?_, ?_, ?_, ?_, ?_, ?_, ?_, ?_⟩
      · rw [hstep, he]
        simp [hw', upload_file, apiUpload]
      · rw [hstep, hc]
        simp [hw', upload_file, apiUpload]
      · intro i hmem
        rcases List.mem_cons.mp hmem with h' | h'
        · exact Call.noConfusion h'
        · exact hnd i h'
      · rw [hstep, hd]
      · rw [hstep, hev]
        simp [hw']
      · rw [hstep]
        refine le_trans huc ?_
        simp [hw']
        omega
      · rw [hstep]
        refine le_trans hus ?_
        simp [hw']
        omega
      · rw [hstep]
        refine le_trans ?_ hmono
        simp [hw']
      · rw [hstep]
        simp only [prgSizes, List.filterMap_cons]
        refine ⟨by simp [hw'], ?_⟩
        have : w'.uploaded_size = w.uploaded_size + fsize := by simp [hw']
        rw [← this]
        exact hchain
      · intro ev hmem uc tc us ts hevp
        rcases List.mem_cons.mp hmem with h' | h'
        · rw [h'] at hevp
          exact Event.noConfusion hevp
        · rcases List.mem_cons.mp h' with h'' | h''
          · rw [h''] at hevp
            have h1 := Event.progress.inj hevp
            exact ⟨h1.2.1.symm, h1.2.2.2.symm⟩
          · exact hprg ev h'' uc tc us ts hevp
      · intro _
        have hlk' : (lookupKey path w'.dir_ids).isSome := by
          simp only [hw']
          simp [hlk]
        obtain ⟨ho, hc', hs'⟩ := hok hlk'
        rw [hstep]
        refine ⟨ho, ?_, ?_⟩
        · rw [hc']
          simp [hw']
          omega
        · rw [hs']
          simp [hw']
          omega
      · intro hres
        rw [hstep] at hres
        obtain ⟨hc', hs'⟩ := hok2 hres
        rw [hstep]
        refine ⟨?_, ?_⟩
        · rw [hc']
          simp [hw']
          omega
        · rw [hs']
          simp [hw']
          omega

/-- Shape of the folders loop (with the src/ collision policy, i.e.
`force = false`): it only appends entries (one FOLDER entry per created
subdirectory), calls (never a delete) and events (never a progress event),
leaves the counters alone, pushes onto the map only keys of the form
`path ++ "/" ++ n` whose ids are ids of FOLDER entries present remotely,
never raises `KeyError` when the parent key is present, and on success has
inserted a key for every subdirectory of the list. -/
theorem walkFolders_shape (cx : Ctx) (path : String) :
    ∀ (l : List (String × LTree)) (w : WSt),
      ∃ (tail : List Entry) (ctail : List Call) (ins : List (String × Nat))
        (evs : List Event),
        (walkFolders cx false path l w).2.sys.fs.entries
          = w.sys.fs.entries ++ tail ∧
        (walkFolders cx false path l w).2.sys.calls = w.sys.calls ++ ctail ∧
        (∀ i, Call.deleteCall i ∉ ctail) ∧
        (walkFolders cx false path l w).2.dir_ids = ins ++ w.dir_ids ∧
        (∀ q ∈ ins, (∃ e ∈ (walkFolders cx false path l w).2.sys.fs.entries,
            e.id = q.2 ∧ e.file_type = "FOLDER") ∧
          ∃ n : String, q.1 = path ++ "/" ++ n) ∧
        (walkFolders cx false path l w).2.events = w.events ++ evs ∧
        (∀ ev ∈ evs, ∀ uc tc us ts, ev ≠ .progress uc tc us ts) ∧
        (walkFolders cx false path l w).2.uploaded_count = w.uploaded_count ∧
        (walkFolders cx false path l w).2.uploaded_size = w.uploaded_size ∧
        ((lookupKey path w.dir_ids).isSome →
          ∀ k, (walkFolders cx false path l w).1 ≠ .error (.keyError k)) ∧
        ((walkFolders cx false path l w).1 = .ok () →
          ∀ q ∈ l, (lookupKey (path ++ "/" ++ q.1)
            (walkFolders cx false path l w).2.dir_ids).isSome) := by
  intro l
  induction l with
  | nil =>
    intro w
    refine ⟨[], [], [], [], ?_⟩
    simp [walkFolders]
  | cons q rest ih =>
    intro w
    obtain ⟨n, sub⟩ := q
    cases hlk : lookupKey path w.dir_ids with
    | none =>
      refine ⟨[], [], [], [], ?_⟩
      simp only [walkFolders, hlk]
      simp [hlk]
    | some pid =>
      rw [show walkFolders cx false path ((n, sub) :: rest) w
          = (match create_folder_f w.sys n pid false with
             | (.error e, sys') => (.error e, { w with sys := sys' })
             | (.ok folder, sys') =>
               walkFolders cx false path rest
                 { w with
                   sys := sys',
                   dir_ids := (path ++ "/" ++ n, folder.id) :: w.dir_ids,
                   events := w.events
                     ++ [.folderCreated
                          (rel_path (path ++ "/" ++ n) cx.name cx.srcPre)] })
        from by simp only [walkFolders, hlk]]
      rw [create_folder_f_false, create_folder_eq]
      by_cases hcl : w.sys.fs.clash n pid
      · rw [if_pos hcl]
        refine ⟨[], [.createCall n pid], [], [], ?_⟩
        simp [hlk]
      · rw [if_neg hcl]
        set E : Entry := ⟨w.sys.fs.nextId, n, "FOLDER", 0, pid⟩ with hE
        set w' : WSt :=
          { w with
            sys := ⟨⟨w.sys.fs.entries ++ [E], w.sys.fs.nextId + 1⟩,
                    w.sys.calls ++ [.createCall n pid]⟩,
            dir_ids := (path ++ "/" ++ n, E.id) :: w.dir_ids,
            events := w.events
              ++ [.folderCreated
                   (rel_path (path ++ "/" ++ n) cx.name cx.srcPre)] } with hw'
        obtain ⟨tail, ctail, ins, evs, he, hc, hnd, hd, hprov, hev, hprg,
          huc, hus, hke, hok⟩ := ih w'
        refine ⟨E :: tail, .createCall n pid :: ctail,
                ins ++ [(path ++ "/" ++ n, E.id)],
                .folderCreated (rel_path (path ++ "/" ++ n) cx.name cx.srcPre)
                  :: evs, ?_, ?_, ?_, ?_, ?_, ?_, ?_, ?_, ?_, ?_, ?_⟩
        · rw [he]
          simp [hw']
        · rw [hc]
          simp [hw']
        · intro i hmem
          rcases List.mem_cons.mp hmem with h' | h'
          · exact Call.noConfusion h'
          · exact hnd i h'
        · rw [hd]
          simp [hw']
        · intro q hq
          rcases List.mem_append.mp hq with h' | h'
          · exact hprov q h'
          · have hq' : q = (path ++ "/" ++ n, E.id) := by simpa using h'
            subst hq'
            refine ⟨⟨E, ?_, rfl, rfl⟩, ⟨n, rfl⟩⟩
            rw [he]
            simp [hw']
        · rw [hev]
          simp [hw']
        · intro ev hmem
          rcases List.mem_cons.mp hmem with h' | h'
          · intro uc tc us ts hevp
            rw [h'] at hevp
            exact Event.noConfusion hevp
          · exact hprg ev h'
        · rw [huc]
        · rw [hus]
        · intro _
          apply hke
          show (lookupKey path ((path ++ "/" ++ n, E.id) :: w.dir_ids)).isSome
          exact lookupKey_isSome_append path [(path ++ "/" ++ n, E.id)]
            w.dir_ids (by simp [hlk])
        · intro hres q hq
          rcases List.mem_cons.mp hq with h' | h'
          · subst h'
            rw [hd]
            apply lookupKey_isSome_append
            simp only [hw']
            simp [lookupKey]
          · exact hok hres q h'

/-- Shape of the whole walk (src/ collision policy, `force = false`), by
induction on the fuel: the walk only appends remote entries (never deletes),
only appends calls and events, pushes only ids of remotely existing FOLDER
entries onto the map, never raises `KeyError` once the key of the directory
being walked is present, keeps `uploaded_size` within the pre-scanned total
at every observation point (the progress events form a bounded
non-decreasing chain), and on success accounts for exactly every file of
the subtree. -/
theorem walk_shape : ∀ fuel : Nat,
    (∀ (cx : Ctx) (path : String) (t : LTree) (w : WSt),
      ∃ (tail : List Entry) (ctail : List Call) (ins : List (String × Nat))
        (evs : List Event),
        (walkNodeF cx false fuel path t w).2.sys.fs.entries
          = w.sys.fs.entries ++ tail ∧
        (walkNodeF cx false fuel path t w).2.sys.calls = w.sys.calls ++ ctail ∧
        (∀ i, Call.deleteCall i ∉ ctail) ∧
        (walkNodeF cx false fuel path t w).2.dir_ids = ins ++ w.dir_ids ∧
        (∀ q ∈ ins, ∃ e ∈ (walkNodeF cx false fuel path t w).2.sys.fs.entries,
          e.id = q.2 ∧ e.file_type = "FOLDER") ∧
        (walkNodeF cx false fuel path t w).2.events = w.events ++ evs ∧
        (∀ ev ∈ evs, ∀ uc tc us ts, ev = .progress uc tc us ts →
          tc = cx.total_count ∧ ts = cx.total_size) ∧
        (walkNodeF cx false fuel path t w).2.uploaded_count
          ≤ w.uploaded_count + totalCount t ∧
        (walkNodeF cx false fuel path t w).2.uploaded_size
          ≤ w.uploaded_size + totalSize t ∧
        leChain w.uploaded_size (prgSizes evs)
          (walkNodeF cx false fuel path t w).2.uploaded_size ∧
        ((lookupKey path w.dir_ids).isSome →
          ∀ k, (walkNodeF cx false fuel path t w).1 ≠ .error (.keyError k)) ∧
        ((walkNodeF cx false fuel path t w).1 = .ok () →
          (walkNodeF cx false fuel path t w).2.uploaded_count
            = w.uploaded_count + totalCount t ∧
          (walkNodeF cx false fuel path t w).2.uploaded_size
            = w.uploaded_size + totalSize t))
    ∧ (∀ (cx : Ctx) (path : String) (l : List (String × LTree)) (w : WSt),
      ∃ (tail : List Entry) (ctail : List Call) (ins : List (String × Nat))
        (evs : List Event),
        (walkChildrenF cx false fuel path l w).2.sys.fs.entries
          = w.sys.fs.entries ++ tail ∧
        (walkChildrenF cx false fuel path l w).2.sys.calls
          = w.sys.calls ++ ctail ∧
        (∀ i, Call.deleteCall i ∉ ctail) ∧
        (walkChildrenF cx false fuel path l w).2.dir_ids = ins ++ w.dir_ids ∧
        (∀ q ∈ ins,
          ∃ e ∈ (walkChildrenF cx false fuel path l w).2.sys.fs.entries,
          e.id = q.2 ∧ e.file_type = "FOLDER") ∧
        (walkChildrenF cx false fuel path l w).2.events = w.events ++ evs ∧
        (∀ ev ∈ evs, ∀ uc tc us ts, ev = .progress uc tc us ts →
          tc = cx.total_count ∧ ts = cx.total_size) ∧
        (walkChildrenF cx false fuel path l w).2.uploaded_count
          ≤ w.uploaded_count + totalCountL l ∧
        (walkChildrenF cx false fuel path l w).2.uploaded_size
          ≤ w.uploaded_size + totalSizeL l ∧
        leChain w.uploaded_size (prgSizes evs)
          (walkChildrenF cx false fuel path l w).2.uploaded_size ∧
        ((∀ q ∈ l, (lookupKey (path ++ "/" ++ q.1) w.dir_ids).isSome) →
          ∀ k, (walkChildrenF cx false fuel path l w).1
            ≠ .error (.keyError k)) ∧
        ((walkChildrenF cx false fuel path l w).1 = .ok () →
          (walkChildrenF cx false fuel path l w).2.uploaded_count
            = w.uploaded_count + totalCountL l ∧
          (walkChildrenF cx false fuel path l w).2.uploaded_size
            = w.uploaded_size + totalSizeL l)) := by
  intro fuel
  induction fuel with
  | zero =>
    constructor
    · intro cx path t w
      refine ⟨[], [], [], [], ?_⟩
      simp [walkNodeF, prgSizes, leChain]
    · intro cx path l w
      refine ⟨[], [], [], [], ?_⟩
      simp [walkChildrenF, prgSizes, leChain]
  | succ fuel ih =>
    constructor
    · -- node case
      intro cx path t w
      cases t with
      | node dirs files =>
      have hunf : walkNodeF cx false (fuel + 1) path (.node dirs files) w
          = match walkFolders cx false path (sortPairs dirs) w with
            | (.error e, w₁) => (.error e, w₁)
            | (.ok _, w₁) =>
              match walkFiles cx path (sortPairs files) w₁ with
              | (.error e, w₂) => (.error e, w₂)
              | (.ok _, w₂) =>
                walkChildrenF cx false fuel path (sortPairs dirs) w₂ := rfl
      rcases hF : walkFolders cx false path (sortPairs dirs) w with ⟨resF, w₁⟩
      obtain ⟨tailF, ctailF, insF, evsF, heF, hcF, hndF, hdF, hprovF, hevF,
        hprgF, hucF, husF, hkeF, hokF⟩ := walkFolders_shape cx path (sortPairs dirs) w
      rw [hF] at heF hcF hdF hprovF hevF hucF husF hkeF hokF
      dsimp only at heF hcF hdF hprovF hevF hucF husF hkeF hokF
      cases resF with
      | error e =>
        rw [hunf, hF]
        dsimp only
        refine ⟨tailF, ctailF, insF, evsF, heF, hcF, hndF, hdF,
          fun q hq => (hprovF q hq).1, hevF, ?_, ?_, ?_, ?_, ?_, ?_⟩
        · intro ev hmem uc tc us ts hevp
          exact absurd hevp (hprgF ev hmem uc tc us ts)
        · rw [hucF]; omega
        · rw [husF]; omega
        · rw [husF, prgSizes_eq_nil hprgF]
          exact le_refl _
        · intro hsome k
          exact hkeF hsome k
        · intro hok
          exact absurd hok.symm (by simp)
      | ok u =>
        obtain ⟨u⟩ := u
        rcases hf : walkFiles cx path (sortPairs files) w₁ with ⟨resf, w₂⟩
        obtain ⟨tailf, ctailf, evsf, hef, hcf, hndf, hdf, hevf, hucf, husf,
          hmonof, hchainf, hprgf, hisf, hok2f⟩ := walkFiles_shape cx path (sortPairs files) w₁
        rw [hf] at hef hcf hdf hevf hucf husf hmonof hchainf hisf hok2f
        dsimp only at hef hcf hdf hevf hucf husf hmonof hchainf hisf hok2f
        cases resf with
        | error e =>
          rw [hunf, hF]
          dsimp only
          rw [hf]
          dsimp only
          refine ⟨tailF ++ tailf, ctailF ++ ctailf, insF, evsF ++ evsf,
            ?_, ?_, ?_, ?_, ?_, ?_, ?_, ?_, ?_, ?_, ?_, ?_⟩
          · rw [hef, heF, List.append_assoc]
          · rw [hcf, hcF, List.append_assoc]
          · intro i hmem
            rcases List.mem_append.mp hmem with h' | h'
            · exact hndF i h'
            · exact hndf i h'
          · rw [hdf, hdF]
          · intro q hq
            obtain ⟨e, hemem, h1, h2⟩ := (hprovF q hq).1
            refine ⟨e, ?_, h1, h2⟩
            rw [hef]
            exact List.mem_append_left _ hemem
          · rw [hevf, hevF, List.append_assoc]
          · intro ev hmem uc tc us ts hevp
            rcases List.mem_append.mp hmem with h' | h'
            · exact absurd hevp (hprgF ev h' uc tc us ts)
            · exact hprgf ev h' uc tc us ts hevp
          · have h1 := List.Perm.length_eq (sortPairs_perm files)
            have h2 := hucF
            have h3 := hucf
            simp only [totalCount]
            omega
          · rw [husF] at husf
            refine le_trans husf ?_
            have : ((sortPairs files).map Prod.snd).sum
                = (files.map Prod.snd).sum :=
              ((sortPairs_perm files).map Prod.snd).sum_eq
            simp only [totalSize]
            omega
          · rw [prgSizes_append, prgSizes_eq_nil hprgF, List.nil_append]
            rw [husF] at hchainf
            exact hchainf
          · intro hsome k
            have h1 : (lookupKey path w₁.dir_ids).isSome := by
              rw [hdF]
              exact lookupKey_isSome_append path insF w.dir_ids hsome
            have := (hisf h1).1
            simp at this
          · intro hok
            exact absurd hok.symm (by simp)
        | ok u2 =>
          obtain ⟨u2⟩ := u2
          rcases hC : walkChildrenF cx false fuel path (sortPairs dirs) w₂
            with ⟨resC, w₃⟩
          obtain ⟨tailC, ctailC, insC, evsC, heC, hcC, hndC, hdC, hprovC,
            hevC, hprgC, hucC, husC, hchainC, hkeC, hokC⟩ :=
            ih.2 cx path (sortPairs dirs) w₂
          rw [hC] at heC hcC hdC hprovC hevC hucC husC hchainC hkeC hokC
          dsimp only at heC hcC hdC hprovC hevC hucC husC hchainC hkeC hokC
          rw [hunf, hF]
          dsimp only
          rw [hf]
          dsimp only
          rw [hC]
          dsimp only
          refine ⟨tailF ++ tailf ++ tailC, ctailF ++ ctailf ++ ctailC,
            insC ++ insF, evsF ++ evsf ++ evsC,
            ?_, ?_, ?_, ?_, ?_, ?_, ?_, ?_, ?_, ?_, ?_, ?_⟩
          · rw [heC, hef, heF]
            simp [List.append_assoc]
          · rw [hcC, hcf, hcF]
            simp [List.append_assoc]
          · intro i hmem
            rcases List.mem_append.mp hmem with h' | h'
            · rcases List.mem_append.mp h' with h'' | h''
              · exact hndF i h''
              · exact hndf i h''
            · exact hndC i h'
          · rw [hdC, hdf, hdF]
            simp [List.append_assoc]
          · intro q hq
            rcases List.mem_append.mp hq with h' | h'
            · obtain ⟨e, hemem, h1, h2⟩ := hprovC q h'
              exact ⟨e, hemem, h1, h2⟩
            · obtain ⟨e, hemem, h1, h2⟩ := (hprovF q h').1
              refine ⟨e, ?_, h1, h2⟩
              rw [heC, hef]
              exact List.mem_append_left _ (List.mem_append_left _ hemem)
          · rw [hevC, hevf, hevF]
            simp [List.append_assoc]
          · intro ev hmem uc tc us ts hevp
            rcases List.mem_append.mp hmem with h' | h'
            · rcases List.mem_append.mp h' with h'' | h''
              · exact absurd hevp (hprgF ev h'' uc tc us ts)
              · exact hprgf ev h'' uc tc us ts hevp
            · exact hprgC ev h' uc tc us ts hevp
          · refine le_trans hucC ?_
            have h1 := List.Perm.length_eq (sortPairs_perm files)
            have h2 := totalCountL_perm (sortPairs_perm dirs)
            have h3 := hucf
            have h4 := hucF
            simp only [totalCount]
            omega
          · refine le_trans husC ?_
            have h1 : ((sortPairs files).map Prod.snd).sum
                = (files.map Prod.snd).sum :=
              ((sortPairs_perm files).map Prod.snd).sum_eq
            have h2 := totalSizeL_perm (sortPairs_perm dirs)
            have h3 := husf
            have h4 := husF
            simp only [totalSize]
            omega
          · rw [prgSizes_append, prgSizes_append, prgSizes_eq_nil hprgF,
              List.nil_append]
            rw [husF] at hchainf
            exact leChain_comp hchainf hchainC
          · intro hsome k
            have h1 : (lookupKey path w₁.dir_ids).isSome := by
              rw [hdF]
              exact lookupKey_isSome_append path insF w.dir_ids hsome
            apply hkeC
            intro q hq
            rw [hdf]
            have := hokF rfl q hq
            rw [hdF] at this ⊢
            exact this
          · intro hok
            obtain ⟨hcnt, hsz⟩ := hokC hok
            obtain ⟨hcnt2, hsz2⟩ := hok2f rfl
            rw [hcnt, hsz, hcnt2, hsz2, hucF, husF]
            have h1 := List.Perm.length_eq (sortPairs_perm files)
            have h2 : ((sortPairs files).map Prod.snd).sum
                = (files.map Prod.snd).sum :=
              ((sortPairs_perm files).map Prod.snd).sum_eq
            have h3 := totalCountL_perm (sortPairs_perm dirs)
            have h4 := totalSizeL_perm (sortPairs_perm dirs)
            simp only [totalCount, totalSize]
            omega
    · -- children case
      intro cx path l w
      cases l with
      | nil =>
        refine ⟨[], [], [], [], ?_⟩
        simp [walkChildrenF, prgSizes, leChain, totalCountL, totalSizeL]
      | cons q rest =>
        obtain ⟨n, sub⟩ := q
        have hunf : walkChildrenF cx false (fuel + 1) path ((n, sub) :: rest) w
            = match walkNodeF cx false fuel (path ++ "/" ++ n) sub w with
              | (.error e, w') => (.error e, w')
              | (.ok _, w') => walkChildrenF cx false fuel path rest w' := rfl
        rcases hN : walkNodeF cx false fuel (path ++ "/" ++ n) sub w
          with ⟨resN, w'⟩
        obtain ⟨tailN, ctailN, insN, evsN, heN, hcN, hndN, hdN, hprovN, hevN,
          hprgN, hucN, husN, hchainN, hkeN, hokN⟩ :=
          ih.1 cx (path ++ "/" ++ n) sub w
        rw [hN] at heN hcN hdN hprovN hevN hucN husN hchainN hkeN hokN
        dsimp only at heN hcN hdN hprovN hevN hucN husN hchainN hkeN hokN
        cases resN with
        | error e =>
          rw [hunf, hN]
          dsimp only
          refine ⟨tailN, ctailN, insN, evsN, heN, hcN, hndN, hdN, hprovN,
            hevN, hprgN, ?_, ?_, hchainN, ?_, ?_⟩
          · refine le_trans hucN ?_
            simp only [totalCountL]
            omega
          · refine le_trans husN ?_
            simp only [totalSizeL]
            omega
          · intro hsome k
            exact hkeN (hsome (n, sub) (by simp)) k
          · intro hok
            exact absurd hok.symm (by simp)
        | ok u =>
          obtain ⟨u⟩ := u
          rcases hR : walkChildrenF cx false fuel path rest w' with ⟨resR, w''⟩
          obtain ⟨tailR, ctailR, insR, evsR, heR, hcR, hndR, hdR, hprovR,
            hevR, hprgR, hucR, husR, hchainR, hkeR, hokR⟩ :=
            ih.2 cx path rest w'
          rw [hR] at heR hcR hdR hprovR hevR hucR husR hchainR hkeR hokR
          dsimp only at heR hcR hdR hprovR hevR hucR husR hchainR hkeR hokR
          rw [hunf, hN]
          dsimp only
          rw [hR]
          dsimp only
          refine ⟨tailN ++ tailR, ctailN ++ ctailR, insR ++ insN,
            evsN ++ evsR, ?_, ?_, ?_, ?_, ?_, ?_, ?_, ?_, ?_, ?_, ?_, ?_⟩
          · rw [heR, heN, List.append_assoc]
          · rw [hcR, hcN, List.append_assoc]
          · intro i hmem
            rcases List.mem_append.mp hmem with h' | h'
            · exact hndN i h'
            · exact hndR i h'
          · rw [hdR, hdN]
            simp [List.append_assoc]
          · intro q hq
            rcases List.mem_append.mp hq with h' | h'
            · exact hprovR q h'
            · obtain ⟨e, hemem, h1, h2⟩ := hprovN q h'
              refine ⟨e, ?_, h1, h2⟩
              rw [heR]
              exact List.mem_append_left _ hemem
          · rw [hevR, hevN, List.append_assoc]
          · intro ev hmem uc tc us ts hevp
            rcases List.mem_append.mp hmem with h' | h'
            · exact hprgN ev h' uc tc us ts hevp
            · exact hprgR ev h' uc tc us ts hevp
          · refine le_trans hucR ?_
            simp only [totalCountL]
            omega
          · refine le_trans husR ?_
            simp only [totalSizeL]
            omega
          · rw [prgSizes_append]
            exact leChain_comp hchainN hchainR
          · intro hsome k
            apply hkeR
            intro q hq
            rw [hdN]
            exact lookupKey_isSome_append _ insN w.dir_ids
              (hsome q (by simp [hq]))
          · intro hok
            obtain ⟨hcnt, hsz⟩ := hokR hok
            obtain ⟨hcnt2, hsz2⟩ := hokN rfl
            rw [hcnt, hsz, hcnt2, hsz2]
            simp only [totalCountL, totalSizeL]
            omega

/-- A progress event in a list contributes its uploaded size to `prgSizes`. -/
theorem mem_prgSizes {evs : List Event} {uc tc us ts : Nat}
    (h : Event.progress uc tc us ts ∈ evs) : us ∈ prgSizes evs :=
  List.mem_filterMap.mpr ⟨Event.progress uc tc us ts, h, rfl⟩

/-! ## Claim C5: progress accounting -/

/-- C5: within one invocation of `upload_folder`, every progress event's
`uploaded_size` is bounded by `total_size` (which, with `total_count`, is
the read-only pre-scan total of the source tree); the observed sizes are
monotonically non-decreasing along the invocation; and a successful
invocation ends with `uploaded_count = total_count` and
`uploaded_size = total_size`. -/
theorem claim_C5_progress_bounds :
    ∀ (t : LTree) (sourceStr sourceParent : String) (target : Option String)
      (name : String) (s : Sys),
      (∀ ev ∈ (upload_folder t sourceStr sourceParent target name false s).2.events,
        ∀ uc tc us ts, ev = Event.progress uc tc us ts →
          tc = totalCount t ∧ ts = totalSize t ∧ us ≤ totalSize t) ∧
      (prgSizes
        (upload_folder t sourceStr sourceParent target name false s).2.events).Pairwise
          (· ≤ ·) ∧
      ((upload_folder t sourceStr sourceParent target name false s).1 = .ok () →
        (upload_folder t sourceStr sourceParent target name false s).2.uploaded_count
          = totalCount t ∧
        (upload_folder t sourceStr sourceParent target name false s).2.uploaded_size
          = totalSize t) := by
  intro t sourceStr sourceParent target name s
  rcases hT : get_target_id s target with ⟨resT, s'⟩
  cases resT with
  | error e =>
    have hru : upload_folder t sourceStr sourceParent target name false s
        = (.error e, ⟨s', [], 0, 0, []⟩) := by
      rw [upload_folder, hT]
    rw [hru]
    refine ⟨by simp, by simp [prgSizes], by simp⟩
  | ok tid =>
    rcases hR : create_folder_f s' name tid false with ⟨resR, s''⟩
    cases resR with
    | error e =>
      have hru : upload_folder t sourceStr sourceParent target name false s
          = (.error e, ⟨s'', [], 0, 0, []⟩) := by
        rw [upload_folder, hT]
        dsimp only
        rw [hR]
      rw [hru]
      refine ⟨by simp, by simp [prgSizes], by simp⟩
    | ok folder =>
      have hru : upload_folder t sourceStr sourceParent target name false s
          = walkNodeF ⟨name, sourceParent ++ "/", totalCount t, totalSize t⟩
              false t.sz sourceStr t
              ⟨s'', [(sourceStr, folder.id)], 0, 0, []⟩ := by
        rw [upload_folder, hT]
        dsimp only
        rw [hR]
        dsimp only [walkNode]
      rw [hru]
      obtain ⟨tail, ctail, ins, evs, he, hc, hnd, hd, hprov, hev, hprg, huc,
        hus, hchain, hke, hok⟩ :=
        (walk_shape t.sz).1 ⟨name, sourceParent ++ "/", totalCount t, totalSize t⟩
          sourceStr t ⟨s'', [(sourceStr, folder.id)], 0, 0, []⟩
      dsimp only at hus huc hchain hok
      simp only [Nat.zero_add] at hus huc hok
      refine ⟨?_, ?_, hok⟩
      · intro ev hmem uc tc us ts hevp
        rw [hev] at hmem
        simp only [List.nil_append] at hmem
        obtain ⟨h1, h2⟩ := hprg ev hmem uc tc us ts hevp
        refine ⟨h1, h2, ?_⟩
        subst hevp
        have hm : us ∈ prgSizes evs := mem_prgSizes hmem
        have := ((leChain_le hchain).2 us hm).2
        omega
      · rw [hev]
        simp only [List.nil_append]
        exact leChain_pairwise hchain

/-- Witness for C5 at a concrete run: uploading `tEx` to the root of an
empty account succeeds and ends with both counters equal to the pre-scanned
totals (2 files, 7 bytes). -/
theorem claim_C5_progress_bounds_witness :
    (upload_folder tEx "src" "." none "src" false sys0).2.uploaded_count
      = totalCount tEx ∧
    (upload_folder tEx "src" "." none "src" false sys0).2.uploaded_size
      = totalSize tEx :=
  (claim_C5_progress_bounds tEx "src" "." none "src" sys0).2.2 (by decide)

/-! ## Claim C10: the directory-id map is always defined and grounded -/

/-- C10: in an `upload_folder` invocation (src/ policy, no force) the
`dir_ids` lookups can never fail — the invocation never raises `KeyError` —
and every id in the final map is the id of a FOLDER entry that exists
remotely (it came from a successful remote folder creation: the root's id
from the mirrored-root creation before the walk, each subdirectory's id from
its creation while its parent was processed). -/
theorem claim_C10_dir_ids_safe :
    ∀ (t : LTree) (sourceStr sourceParent : String) (target : Option String)
      (name : String) (s : Sys),
      (∀ k, (upload_folder t sourceStr sourceParent target name false s).1
        ≠ .error (.keyError k)) ∧
      (∀ q ∈ (upload_folder t sourceStr sourceParent target name false s).2.dir_ids,
        ∃ e ∈ (upload_folder t sourceStr sourceParent target name false s).2.sys.fs.entries,
          e.id = q.2 ∧ e.file_type = "FOLDER") := by
  intro t sourceStr sourceParent target name s
  rcases hT : get_target_id s target with ⟨resT, s'⟩
  cases resT with
  | error e =>
    have hru : upload_folder t sourceStr sourceParent target name false s
        = (.error e, ⟨s', [], 0, 0, []⟩) := by
      rw [upload_folder, hT]
    rw [hru]
    constructor
    · intro k
      cases target with
      | none => simp [get_target_id] at hT
      | some tgt =>
        by_cases ht : tgt = ""
        · subst ht
          simp [get_target_id] at hT
        · rw [get_target_id, if_neg ht] at hT
          obtain ⟨_, _, _, _, _, hke⟩ := get_target_id_go_mono (splitSlash tgt) 0 s
          rw [hT] at hke
          intro hbad
          have h1 : e = Err.keyError k := by
            simpa using hbad
          exact hke k (by rw [h1])
    · simp
  | ok tid =>
    rcases hR : create_folder_f s' name tid false with ⟨resR, s''⟩
    rw [create_folder_f_false, create_folder_eq] at hR
    by_cases hcl : s'.fs.clash name tid
    · rw [if_pos hcl] at hR
      have h2 : s'' = { s' with calls := s'.calls ++ [.createCall name tid] } := by
        have := congrArg Prod.snd hR
        simpa using this.symm
      have hR2 : create_folder_f s' name tid false
          = (.error (.nameClash name tid), s'') := by
        rw [create_folder_f_false, create_folder_eq, if_pos hcl, h2]
      have hru : upload_folder t sourceStr sourceParent target name false s
          = (.error (.nameClash name tid), ⟨s'', [], 0, 0, []⟩) := by
        rw [upload_folder, hT]
        dsimp only
        rw [hR2]
      rw [hru]
      exact ⟨by intro k; simp, by simp⟩
    · rw [if_neg hcl] at hR
      have h2 : s'' = ⟨⟨s'.fs.entries ++ [⟨s'.fs.nextId, name, "FOLDER", 0, tid⟩],
          s'.fs.nextId + 1⟩, s'.calls ++ [.createCall name tid]⟩ := by
        have := congrArg Prod.snd hR
        simpa using this.symm
      have hR2 : create_folder_f s' name tid false
          = (.ok ⟨s'.fs.nextId, name, "FOLDER", 0, tid⟩, s'') := by
        rw [create_folder_f_false, create_folder_eq, if_neg hcl, h2]
      have hru : upload_folder t sourceStr sourceParent target name false s
          = walkNodeF ⟨name, sourceParent ++ "/", totalCount t, totalSize t⟩
              false t.sz sourceStr t
              ⟨s'', [(sourceStr, s'.fs.nextId)], 0, 0, []⟩ := by
        rw [upload_folder, hT]
        dsimp only
        rw [hR2]
        dsimp only [walkNode]
      rw [hru]
      obtain ⟨tail, ctail, ins, evs, he, hc, hnd, hd, hprov, hev, hprg, huc,
        hus, hchain, hke, hok⟩ :=
        (walk_shape t.sz).1 ⟨name, sourceParent ++ "/", totalCount t, totalSize t⟩
          sourceStr t ⟨s'', [(sourceStr, s'.fs.nextId)], 0, 0, []⟩
      constructor
      · intro k
        apply hke
        simp [lookupKey]
      · intro q hq
        rw [hd] at hq
        rcases List.mem_append.mp hq with h' | h'
        · exact hprov q h'
        · have hq' : q = (sourceStr, s'.fs.nextId) := by simpa using h'
          subst hq'
          refine ⟨⟨s'.fs.nextId, name, "FOLDER", 0, tid⟩, ?_, rfl, rfl⟩
          rw [he, h2]
          simp

/-- Witness for C10 at a concrete run (both conjuncts instantiated, the
second at the root entry of the final map). -/
theorem claim_C10_dir_ids_safe_witness :
    ((upload_folder tEx "src" "." none "src" false sys0).1
      ≠ .error (.keyError "src")) ∧
    (∃ e ∈ (upload_folder tEx "src" "." none "src" false sys0).2.sys.fs.entries,
      e.id = 1 ∧ e.file_type = "FOLDER") :=
  ⟨(claim_C10_dir_ids_safe tEx "src" "." none "src" sys0).1 "src",
   (claim_C10_dir_ids_safe tEx "src" "." none "src" sys0).2 ("src", 1) (by decide)⟩

/-- Target resolution only appends entries and calls, and never deletes. -/
theorem get_target_id_mono (s : Sys) (target : Option String) :
    ∃ (tail : List Entry) (ctail : List Call),
      (get_target_id s target).2.fs.entries = s.fs.entries ++ tail ∧
      (get_target_id s target).2.calls = s.calls ++ ctail ∧
      (∀ i, Call.deleteCall i ∉ ctail) := by
  cases target with
  | none => exact ⟨[], [], by simp [get_target_id], by simp [get_target_id], by simp⟩
  | some tgt =>
    by_cases ht : tgt = ""
    · subst ht
      exact ⟨[], [], by simp [get_target_id], by simp [get_target_id], by simp⟩
    · obtain ⟨tail, ctail, h1, h2, h3, _⟩ :=
        get_target_id_go_mono (splitSlash tgt) 0 s
      refine ⟨tail, ctail, ?_, ?_, h3⟩
      · rw [get_target_id, if_neg ht]
        exact h1
      · rw [get_target_id, if_neg ht]
        exact h2

/-! ## Claim C6: force=false name clashes are fatal, no rollback -/

/-- C6: with `force=false` a NameClash during folder creation is fatal.
The gateway raises `NameClash(name, parent_id)` exactly when the remote
service reports a same-name conflict (`NAME_ALREADY_EXIST`); any other
remote error becomes `UnknownAPIError` carrying the action-context string.
The uploader does not catch the clash: if the mirrored-root creation
clashes, the whole invocation aborts with that very error.  And no
invocation ever rolls back — remote entries only grow and no delete call is
ever issued. -/
theorem claim_C6_force_false_fatal :
    (∀ (r : Except String Entry) (n : String) (p : Nat),
      (wrapCreate r n p = .error (.nameClash n p) ↔
        r = .error "NAME_ALREADY_EXIST") ∧
      (∀ msg, msg ≠ "NAME_ALREADY_EXIST" →
        wrapCreate (.error msg) n p
          = .error (.unknownAPI ("Creating folder `" ++ n ++ "` in `"
              ++ toString p ++ "`")))) ∧
    (∀ (s : Sys) (n : String) (p : Nat),
      (create_folder s n p).1 = .error (.nameClash n p) ↔
        s.fs.clash n p = true) ∧
    (∀ (t : LTree) (sourceStr sourceParent : String) (target : Option String)
      (name : String) (s s' : Sys) (tid : Nat),
      get_target_id s target = (.ok tid, s') → s'.fs.clash name tid = true →
      (upload_folder t sourceStr sourceParent target name false s).1
        = .error (.nameClash name tid)) ∧
    (∀ (t : LTree) (sourceStr sourceParent : String) (target : Option String)
      (name : String) (s : Sys),
      ∃ (tail : List Entry) (ctail : List Call),
        (upload_folder t sourceStr sourceParent target name false s).2.sys.fs.entries
          = s.fs.entries ++ tail ∧
        (upload_folder t sourceStr sourceParent target name false s).2.sys.calls
          = s.calls ++ ctail ∧
        (∀ i, Call.deleteCall i ∉ ctail)) := by
  refine ⟨?_, ?_, ?_, ?_⟩
  · intro r n p
    constructor
    · cases r with
      | ok folder => simp [wrapCreate]
      | error msg =>
        by_cases hm : msg = "NAME_ALREADY_EXIST"
        · subst hm
          simp [wrapCreate]
        · simp [wrapCreate, hm]
    · intro msg hm
      simp [wrapCreate, hm]
  · intro s n p
    rw [create_folder_eq]
    by_cases h : s.fs.clash n p
    · simp [h]
    · simp [h]
  · intro t sourceStr sourceParent target name s s' tid hT hcl
    have hR2 : create_folder_f s' name tid false
        = (.error (.nameClash name tid),
           { s' with calls := s'.calls ++ [.createCall name tid] }) := by
      rw [create_folder_f_false, create_folder_eq, if_pos hcl]
    rw [upload_folder, hT]
    dsimp only
    rw [hR2]
  · intro t sourceStr sourceParent target name s
    obtain ⟨tail₀, ctail₀, he₀, hc₀, hnd₀⟩ := get_target_id_mono s target
    rcases hT : get_target_id s target with ⟨resT, s'⟩
    rw [hT] at he₀ hc₀
    cases resT with
    | error e =>
      have hru : upload_folder t sourceStr sourceParent target name false s
          = (.error e, ⟨s', [], 0, 0, []⟩) := by
        rw [upload_folder, hT]
      rw [hru]
      exact ⟨tail₀, ctail₀, he₀, hc₀, hnd₀⟩
    | ok tid =>
      by_cases hcl : s'.fs.clash name tid
      · have hR2 : create_folder_f s' name tid false
            = (.error (.nameClash name tid),
               { s' with calls := s'.calls ++ [.createCall name tid] }) := by
          rw [create_folder_f_false, create_folder_eq, if_pos hcl]
        have hru : upload_folder t sourceStr sourceParent target name false s
            = (.error (.nameClash name tid),
               ⟨{ s' with calls := s'.calls ++ [.createCall name tid] },
                [], 0, 0, []⟩) := by
          rw [upload_folder, hT]
          dsimp only
          rw [hR2]
        rw [hru]
        refine ⟨tail₀, ctail₀ ++ [.createCall name tid], he₀, ?_, ?_⟩
        · rw [hc₀, List.append_assoc]
        · intro i hi
          rcases List.mem_append.mp hi with h' | h'
          · exact hnd₀ i h'
          · simp at h'
      · have hR2 : create_folder_f s' name tid false
            = (.ok ⟨s'.fs.nextId, name, "FOLDER", 0, tid⟩,
               ⟨⟨s'.fs.entries ++ [⟨s'.fs.nextId, name, "FOLDER", 0, tid⟩],
                 s'.fs.nextId + 1⟩,
                s'.calls ++ [.createCall name tid]⟩) := by
          rw [create_folder_f_false, create_folder_eq, if_neg hcl]
        have hru : upload_folder t sourceStr sourceParent target name false s
            = walkNodeF ⟨name, sourceParent ++ "/", totalCount t, totalSize t⟩
                false t.sz sourceStr t
                ⟨⟨⟨s'.fs.entries ++ [⟨s'.fs.nextId, name, "FOLDER", 0, tid⟩],
                   s'.fs.nextId + 1⟩,
                  s'.calls ++ [.createCall name tid]⟩,
                 [(sourceStr, s'.fs.nextId)], 0, 0, []⟩ := by
          rw [upload_folder, hT]
          dsimp only
          rw [hR2]
          dsimp only [walkNode]
        rw [hru]
        obtain ⟨tail, ctail, ins, evs, he, hc, hnd, _, _, _, _, _, _, _, _, _⟩ :=
          (walk_shape t.sz).1 ⟨name, sourceParent ++ "/", totalCount t, totalSize t⟩
            sourceStr t
            ⟨⟨⟨s'.fs.entries ++ [⟨s'.fs.nextId, name, "FOLDER", 0, tid⟩],
               s'.fs.nextId + 1⟩,
              s'.calls ++ [.createCall name tid]⟩,
             [(sourceStr, s'.fs.nextId)], 0, 0, []⟩
        refine ⟨tail₀ ++ [⟨s'.fs.nextId, name, "FOLDER", 0, tid⟩] ++ tail,
                ctail₀ ++ [.createCall name tid] ++ ctail, ?_, ?_, ?_⟩
        · rw [he]
          dsimp only
          rw [he₀]
          simp [List.append_assoc]
        · rw [hc]
          dsimp only
          rw [hc₀]
          simp [List.append_assoc]
        · intro i hi
          rcases List.mem_append.mp hi with h' | h'
          · rcases List.mem_append.mp h' with h'' | h''
            · exact hnd₀ i h''
            · simp at h''
          · exact hnd i h'

/-- Witness for C6: an unrelated remote error is wrapped with its context
string; on `sysClash` (root already holds folder `src`) the gateway reports
the clash and a force=false upload of `tEx` as `src` aborts with exactly
that error. -/
theorem claim_C6_force_false_fatal_witness :
    (wrapCreate (.error "SOME_OTHER_ERROR") "a" 0
      = .error (.unknownAPI "Creating folder `a` in `0`")) ∧
    ((create_folder sysClash "src" 0).1 = .error (.nameClash "src" 0)) ∧
    ((upload_folder tEx "src" "." none "src" false sysClash).1
      = .error (.nameClash "src" 0)) :=
  ⟨(claim_C6_force_false_fatal.1 (.error "SOME_OTHER_ERROR") "a" 0).2
      "SOME_OTHER_ERROR" (by decide),
   (claim_C6_force_false_fatal.2.1 sysClash "src" 0).mpr (by decide),
   claim_C6_force_false_fatal.2.2.1 tEx "src" "." none "src" sysClash sysClash 0
     rfl (by decide)⟩

/-! ## Success-trace machinery for C2 -/

/-- A lookup skips a block none of whose keys match. -/
theorem lookupKey_append_skip (k : String) :
    ∀ (l₁ : List (String × Nat)) (l₂ : List (String × Nat)),
      (∀ q ∈ l₁, q.1 ≠ k) →
      lookupKey k (l₁ ++ l₂) = lookupKey k l₂ := by
  intro l₁
  induction l₁ with
  | nil => intro l₂ _; rfl
  | cons q rest ih =>
    intro l₂ h
    obtain ⟨k', v⟩ := q
    have hq : k' ≠ k := h (k', v) (by simp)
    simp only [List.cons_append, lookupKey, if_neg hq]
    exact ih l₂ (fun p hp => h p (by simp [hp]))

/-- A slash-extended path never equals the path itself. -/
theorem key_ne_path (path n : String) : path ++ "/" ++ n ≠ path := by
  intro h
  have h2 := congrArg String.length h
  rw [String.length_append, String.length_append] at h2
  have h3 : "/".length = 1 := rfl
  omega

/-- Children keys of one directory are distinguished by the child name. -/
theorem key_inj {path a b : String} (h : path ++ "/" ++ a = path ++ "/" ++ b) :
    a = b := by
  have h2 := congrArg String.data h
  simp only [String.data_append] at h2
  exact String.ext (List.append_cancel_left h2)

/-- A slash-free name contains no `/`. -/
theorem noSlash_not_mem {s : String} (h : noSlash s = true) : '/' ∉ s.data := by
  intro hm
  simp only [noSlash, Bool.not_eq_true', List.any_eq_false] at h
  have := h '/' hm
  simp at this

/-- A key with a deeper suffix never collides with a slash-free sibling
name under the same parent path. -/
theorem slash_key_ne {b : String} (a c : String) (hb : noSlash b = true) :
    a ++ "/" ++ c ≠ b := by
  intro h
  apply noSlash_not_mem hb
  rw [← h]
  simp [String.data_append]

/-- Every key inserted by `iKeysRev` is a named child of `path`. -/
theorem iKeysRev_mem :
    ∀ (l : List (String × LTree)) (path : String) (nid : Nat)
      (q : String × Nat), q ∈ iKeysRev path nid l →
      ∃ m, m ∈ l.map Prod.fst ∧ q.1 = path ++ "/" ++ m := by
  intro l
  induction l with
  | nil => intro path nid q hq; simp [iKeysRev] at hq
  | cons p rest ih =>
    intro path nid q hq
    obtain ⟨n, sub⟩ := p
    simp only [iKeysRev, List.mem_append, List.mem_singleton] at hq
    rcases hq with h' | h'
    · obtain ⟨m, hm, he⟩ := ih path (nid + 1) q h'
      exact ⟨m, by simp [hm], he⟩
    · exact ⟨n, by simp, by rw [h']⟩

/-- Every key inserted during a subtree walk lies strictly below `path`. -/
theorem iKeysF_shape : ∀ fuel : Nat,
    (∀ (path : String) (nid : Nat) (t : LTree) (q : String × Nat),
      q ∈ iKeysF fuel path nid t → ∃ suf, q.1 = path ++ "/" ++ suf) ∧
    (∀ (path : String) (nid : Nat) (l : List (String × LTree))
      (q : String × Nat),
      q ∈ iKeysLF fuel path nid l → ∃ suf, q.1 = path ++ "/" ++ suf) := by
  intro fuel
  induction fuel with
  | zero =>
    constructor
    · intro path nid t q hq
      simp [iKeysF] at hq
    · intro path nid l q hq
      simp [iKeysLF] at hq
  | succ fuel ih =>
    constructor
    · intro path nid t q hq
      obtain ⟨dirs, files⟩ := t
      simp only [iKeysF, List.mem_append] at hq
      rcases hq with h' | h'
      · exact ih.2 path (nid + dirs.length + files.length)
          (sortPairs dirs) q h'
      · obtain ⟨m, _, he⟩ := iKeysRev_mem (sortPairs dirs) path nid q h'
        exact ⟨m, he⟩
    · intro path nid l q hq
      cases l with
      | nil => simp [iKeysLF] at hq
      | cons p rest =>
        obtain ⟨n, sub⟩ := p
        simp only [iKeysLF, List.mem_append] at hq
        rcases hq with h' | h'
        · exact ih.2 path (nid + crt sub) rest q h'
        · obtain ⟨suf, he⟩ := ih.1 (path ++ "/" ++ n) nid sub q h'
          refine ⟨n ++ "/" ++ suf, ?_⟩
          rw [he]
          simp [String.append_assoc]

/-- The reversed level insertions realize the consecutive-id map promised
by `keyed`, whatever lies below them, provided sibling names are unique. -/
theorem keyed_iKeysRev (path : String) :
    ∀ (l : List (String × LTree)) (nid : Nat) (d : List (String × Nat)),
      nodupKeys l = true →
      keyed path nid (iKeysRev path nid l ++ d) l := by
  intro l
  induction l with
  | nil => intro nid d _; trivial
  | cons p rest ih =>
    intro nid d h
    obtain ⟨n, sub⟩ := p
    simp only [nodupKeys, Bool.and_eq_true, Bool.not_eq_true',
      List.any_eq_false] at h
    obtain ⟨h1, h2⟩ := h
    refine ⟨?_, ?_⟩
    · show lookupKey (path ++ "/" ++ n)
        (iKeysRev path nid ((n, sub) :: rest) ++ d) = some nid
      rw [show iKeysRev path nid ((n, sub) :: rest)
          = iKeysRev path (nid + 1) rest ++ [(path ++ "/" ++ n, nid)] from rfl]
      rw [List.append_assoc]
      rw [lookupKey_append_skip]
      · simp [lookupKey]
      · intro q hq
        obtain ⟨m, hm, he⟩ := iKeysRev_mem rest path (nid + 1) q hq
        rw [he]
        intro hk
        have hmn : m = n := key_inj hk
        obtain ⟨p, hp, hpe⟩ := List.mem_map.mp hm
        have h3 := h1 p hp
        rw [hpe, hmn] at h3
        simp at h3
    · have := ih (nid + 1) ([(path ++ "/" ++ n, nid)] ++ d) h2
      show keyed path (nid + 1)
        (iKeysRev path nid ((n, sub) :: rest) ++ d) rest
      rw [show iKeysRev path nid ((n, sub) :: rest)
          = iKeysRev path (nid + 1) rest ++ [(path ++ "/" ++ n, nid)] from rfl]
      rw [List.append_assoc]
      exact this

/-- `keyed` survives stacking a block of foreign keys on top of the map. -/
theorem keyed_ext (path : String) :
    ∀ (l : List (String × LTree)) (cid : Nat) (d ins : List (String × Nat)),
      keyed path cid d l →
      (∀ q ∈ ins, ∀ p ∈ l, q.1 ≠ path ++ "/" ++ p.1) →
      keyed path cid (ins ++ d) l := by
  intro l
  induction l with
  | nil => intro cid d ins _ _; trivial
  | cons p rest ih =>
    intro cid d ins h hne
    obtain ⟨n, sub⟩ := p
    obtain ⟨h1, h2⟩ := h
    refine ⟨?_, ?_⟩
    · show lookupKey (path ++ "/" ++ n) (ins ++ d) = some cid
      rw [lookupKey_append_skip]
      · exact h1
      · intro q hq
        exact hne q hq (n, sub) (by simp)
    · exact ih (cid + 1) d ins h2
        (fun q hq p hp => hne q hq p (by simp [hp]))

/-- The file loop always succeeds once the parent key resolves, uploads the
files in the given order to that parent, consumes one fresh id per file
and leaves the id map untouched. -/
theorem walkFiles_trace (cx : Ctx) (path : String) :
    ∀ (l : List (String × Nat)) (w : WSt) (pid : Nat),
      lookupKey path w.dir_ids = some pid →
      (walkFiles cx path l w).1 = .ok () ∧
      (walkFiles cx path l w).2.sys.calls
        = w.sys.calls
          ++ l.map (fun q => Call.uploadCall (path ++ "/" ++ q.1) pid) ∧
      (walkFiles cx path l w).2.sys.fs.nextId
        = w.sys.fs.nextId + l.length ∧
      (walkFiles cx path l w).2.dir_ids = w.dir_ids := by
  intro l
  induction l with
  | nil =>
    intro w pid hlk
    simp [walkFiles]
  | cons q rest ih =>
    intro w pid hlk
    obtain ⟨n, fsize⟩ := q
    set w' : WSt :=
      { w with
        sys := ⟨⟨w.sys.fs.entries
                  ++ [⟨w.sys.fs.nextId, n, "FILE", fsize, pid⟩],
                w.sys.fs.nextId + 1⟩,
                w.sys.calls ++ [.uploadCall (path ++ "/" ++ n) pid]⟩,
        uploaded_count := w.uploaded_count + 1,
        uploaded_size := w.uploaded_size + fsize,
        events := w.events
          ++ [.fileUploaded (rel_path (path ++ "/" ++ n) cx.name cx.srcPre),
              .progress (w.uploaded_count + 1) cx.total_count
                (w.uploaded_size + fsize) cx.total_size] } with hw'
    rw [show walkFiles cx path ((n, fsize) :: rest) w
        = walkFiles cx path rest w'
      from by rw [hw']; simp only [walkFiles, hlk]; rfl]
    obtain ⟨hok, hc, hn, hd⟩ := ih w' pid (by rw [hw']; exact hlk)
    refine ⟨hok, ?_, ?_, by rw [hd, hw']⟩
    · rw [hc, hw']
      simp
    · rw [hn, hw']
      dsimp only
      simp only [List.length_cons]
      omega

/-- The folder loop, on success, issues exactly one creation call per
subdirectory in the given order, all against the parent id, consumes the
consecutive fresh ids and stacks exactly this level's reversed keys onto
the id map. -/
theorem walkFolders_trace (cx : Ctx) (path : String) :
    ∀ (l : List (String × LTree)) (w : WSt) (pid : Nat),
      lookupKey path w.dir_ids = some pid →
      (walkFolders cx false path l w).1 = .ok () →
      (walkFolders cx false path l w).2.sys.calls
        = w.sys.calls ++ l.map (fun q => Call.createCall q.1 pid) ∧
      (walkFolders cx false path l w).2.sys.fs.nextId
        = w.sys.fs.nextId + l.length ∧
      (walkFolders cx false path l w).2.dir_ids
        = iKeysRev path w.sys.fs.nextId l ++ w.dir_ids := by
  intro l
  induction l with
  | nil =>
    intro w pid hlk _
    simp [walkFolders, iKeysRev]
  | cons q rest ih =>
    intro w pid hlk hok
    obtain ⟨n, sub⟩ := q
    rw [show walkFolders cx false path ((n, sub) :: rest) w
        = (match create_folder_f w.sys n pid false with
           | (.error e, sys') => (.error e, { w with sys := sys' })
           | (.ok folder, sys') =>
             walkFolders cx false path rest
               { w with
                 sys := sys',
                 dir_ids := (path ++ "/" ++ n, folder.id) :: w.dir_ids,
                 events := w.events
                   ++ [.folderCreated
                        (rel_path (path ++ "/" ++ n) cx.name cx.srcPre)] })
      from by simp only [walkFolders, hlk]] at hok ⊢
    rw [create_folder_f_false, create_folder_eq] at hok ⊢
    by_cases hcl : w.sys.fs.clash n pid
    · rw [if_pos hcl] at hok
      simp at hok
    · rw [if_neg hcl] at hok ⊢
      dsimp only at hok ⊢
      have hlk' : lookupKey path
          ((path ++ "/" ++ n, w.sys.fs.nextId) :: w.dir_ids) = some pid := by
        simp only [lookupKey, if_neg (key_ne_path path n)]
        exact hlk
      obtain ⟨hc, hn, hd⟩ := ih _ pid hlk' hok
      refine ⟨?_, ?_, ?_⟩
      · rw [hc]
        simp
      · rw [hn]
        dsimp only
        simp only [List.length_cons]
        omega
      · rw [hd]
        dsimp only
        rw [show iKeysRev path w.sys.fs.nextId ((n, sub) :: rest)
            = iKeysRev path (w.sys.fs.nextId + 1) rest
              ++ [(path ++ "/" ++ n, w.sys.fs.nextId)] from rfl]
        simp

/-- `wfL` gives `wfT` of every member subtree. -/
theorem wfL_mem : ∀ (l : List (String × LTree)), wfL l = true →
    ∀ p ∈ l, wfT p.2 = true := by
  intro l
  induction l with
  | nil => intro _ p hp; simp at hp
  | cons q rest ih =>
    intro h p hp
    rw [wfL, Bool.and_eq_true] at h
    rcases List.mem_cons.mp hp with h' | h'
    · rw [h']
      exact h.1
    · exact ih h.2 p h'

/-- `nodupKeys` is the boolean form of key-list `Nodup`. -/
theorem nodupKeys_iff {α : Type} : ∀ (l : List (String × α)),
    nodupKeys l = true ↔ (l.map Prod.fst).Nodup := by
  intro l
  induction l with
  | nil => simp [nodupKeys]
  | cons q rest ih =>
    obtain ⟨n, x⟩ := q
    rw [nodupKeys, Bool.and_eq_true]
    simp only [List.map_cons, List.nodup_cons, ← ih,
      Bool.not_eq_true', List.any_eq_false, List.mem_map]
    constructor
    · rintro ⟨h1, h2⟩
      refine ⟨?_, h2⟩
      rintro ⟨p, hp, hpe⟩
      have := h1 p hp
      rw [hpe] at this
      simp at this
    · rintro ⟨h1, h2⟩
      refine ⟨?_, h2⟩
      intro p hp he
      exact h1 ⟨p, hp, by simpa using he⟩

/-- `crtL` only depends on the multiset of siblings. -/
theorem crtL_perm {l₁ l₂ : List (String × LTree)} (h : l₁.Perm l₂) :
    crtL l₁ = crtL l₂ := by
  induction h with
  | nil => rfl
  | cons x _ ih => simp [crtL, ih]
  | swap x y l => simp [crtL]; omega
  | trans _ _ ih₁ ih₂ => exact ih₁.trans ih₂

/-- The master success lemma: on a well-formed tree, a successful walk
(force=false) produces exactly the expected trace — one creation call per
subdirectory and one upload call per file, lexicographic sibling order,
parents before children, children ids consecutive — consumes exactly one
fresh remote id per created object, and stacks exactly the expected keys
onto the id map. -/
theorem walk_trace : ∀ fuel : Nat,
    (∀ (cx : Ctx) (path : String) (t : LTree) (w : WSt) (pid : Nat),
      wfT t = true →
      lookupKey path w.dir_ids = some pid →
      (walkNodeF cx false fuel path t w).1 = .ok () →
      (walkNodeF cx false fuel path t w).2.sys.calls
        = w.sys.calls ++ nTraceF fuel path pid w.sys.fs.nextId t ∧
      (walkNodeF cx false fuel path t w).2.sys.fs.nextId
        = w.sys.fs.nextId + crt t ∧
      (walkNodeF cx false fuel path t w).2.dir_ids
        = iKeysF fuel path w.sys.fs.nextId t ++ w.dir_ids)
    ∧ (∀ (cx : Ctx) (path : String) (l : List (String × LTree)) (w : WSt)
        (cid : Nat),
      (∀ p ∈ l, noSlash p.1 = true ∧ wfT p.2 = true) →
      keyed path cid w.dir_ids l →
      (walkChildrenF cx false fuel path l w).1 = .ok () →
      (walkChildrenF cx false fuel path l w).2.sys.calls
        = w.sys.calls ++ nTraceLF fuel path cid w.sys.fs.nextId l ∧
      (walkChildrenF cx false fuel path l w).2.sys.fs.nextId
        = w.sys.fs.nextId + crtL l ∧
      (walkChildrenF cx false fuel path l w).2.dir_ids
        = iKeysLF fuel path w.sys.fs.nextId l ++ w.dir_ids) := by
  intro fuel
  induction fuel with
  | zero =>
    constructor
    · intro cx path t w pid _ _ hok
      simp [walkNodeF] at hok
    · intro cx path l w cid _ _ hok
      simp [walkChildrenF] at hok
  | succ fuel ih =>
    constructor
    · -- node case
      intro cx path t w pid hwf hlk hok
      obtain ⟨dirs, files⟩ := t
      simp only [wfT, Bool.and_eq_true] at hwf
      obtain ⟨⟨⟨hnd, hsl⟩, hndf⟩, hwl⟩ := hwf
      rcases hF : walkFolders cx false path (sortPairs dirs) w with ⟨resF, w₁⟩
      cases resF with
      | error e =>
        rw [walkNodeF, hF] at hok
        simp at hok
      | ok u =>
        obtain ⟨hc₁, hn₁, hd₁⟩ :=
          walkFolders_trace cx path (sortPairs dirs) w pid hlk (by rw [hF])
        rw [hF] at hc₁ hn₁ hd₁
        dsimp only at hc₁ hn₁ hd₁
        have hlk₁ : lookupKey path w₁.dir_ids = some pid := by
          rw [hd₁, lookupKey_append_skip]
          · exact hlk
          · intro q hq
            obtain ⟨m, _, he⟩ := iKeysRev_mem _ path _ q hq
            rw [he]
            exact key_ne_path path m
        obtain ⟨hok₂, hc₂, hn₂, hd₂⟩ :=
          walkFiles_trace cx path (sortPairs files) w₁ pid hlk₁
        rcases hFi : walkFiles cx path (sortPairs files) w₁ with ⟨resFi, w₂⟩
        rw [hFi] at hok₂ hc₂ hn₂ hd₂
        dsimp only at hok₂ hc₂ hn₂ hd₂
        cases resFi with
        | error e => simp at hok₂
        | ok u₂ =>
          rw [walkNodeF, hF] at hok ⊢
          dsimp only at hok ⊢
          rw [hFi] at hok ⊢
          dsimp only at hok ⊢
          have hnds : nodupKeys (sortPairs dirs) = true :=
            (nodupKeys_iff _).mpr
              (((sortPairs_perm dirs).map Prod.fst).nodup_iff.mpr
                ((nodupKeys_iff _).mp hnd))
          have hmem : ∀ p ∈ sortPairs dirs, noSlash p.1 = true ∧ wfT p.2 = true := by
            intro p hp
            have hpd : p ∈ dirs := (sortPairs_perm dirs).mem_iff.mp hp
            refine ⟨?_, wfL_mem dirs hwl p hpd⟩
            rw [List.all_eq_true] at hsl
            exact hsl p hpd
          have hkey : keyed path w.sys.fs.nextId w₂.dir_ids (sortPairs dirs) := by
            rw [hd₂, hd₁]
            exact keyed_iKeysRev path (sortPairs dirs) w.sys.fs.nextId
              w.dir_ids hnds
          obtain ⟨hc₃, hn₃, hd₃⟩ :=
            ih.2 cx path (sortPairs dirs) w₂ w.sys.fs.nextId hmem hkey hok
          have hlen : (sortPairs dirs).length = dirs.length :=
            (sortPairs_perm dirs).length_eq
          have hlenf : (sortPairs files).length = files.length :=
            (sortPairs_perm files).length_eq
          have hn₂' : w₂.sys.fs.nextId
              = w.sys.fs.nextId + dirs.length + files.length := by
            rw [hn₂, hn₁, hlen, hlenf]
          refine ⟨?_, ?_, ?_⟩
          · rw [hc₃, hc₂, hc₁, hn₂']
            simp only [nTraceF, List.append_assoc]
          · rw [hn₃, hn₂']
            have : crtL (sortPairs dirs) = crtL dirs := crtL_perm (sortPairs_perm dirs)
            rw [this]
            simp only [crt]
            omega
          · rw [hd₃, hd₂, hd₁, hn₂']
            simp only [iKeysF, List.append_assoc]
    · -- children case
      intro cx path l w cid hmem hkey hok
      cases l with
      | nil =>
        rw [walkChildrenF] at hok ⊢
        simp only [nTraceLF, crtL, iKeysLF, List.append_nil, List.nil_append]
        exact ⟨by simp, by simp, by simp⟩
      | cons q rest =>
        obtain ⟨n, sub⟩ := q
        rcases hN : walkNodeF cx false fuel (path ++ "/" ++ n) sub w
          with ⟨resN, w'⟩
        cases resN with
        | error e =>
          rw [walkChildrenF, hN] at hok
          simp at hok
        | ok u =>
          rw [walkChildrenF, hN] at hok ⊢
          dsimp only at hok ⊢
          obtain ⟨hsln, hwfn⟩ := hmem (n, sub) (by simp)
          obtain ⟨hk1, hk2⟩ := hkey
          obtain ⟨hcN, hnN, hdN⟩ :=
            ih.1 cx (path ++ "/" ++ n) sub w cid hwfn hk1 (by rw [hN])
          rw [hN] at hcN hnN hdN
          dsimp only at hcN hnN hdN
          have hkey' : keyed path (cid + 1) w'.dir_ids rest := by
            rw [hdN]
            apply keyed_ext path rest (cid + 1) w.dir_ids _ hk2
            intro q hq p hp hqe
            obtain ⟨suf, hsuf⟩ :=
              (iKeysF_shape fuel).1 (path ++ "/" ++ n) w.sys.fs.nextId sub q hq
            rw [hsuf] at hqe
            have hassoc : (path ++ "/" ++ n) ++ "/" ++ suf
                = path ++ "/" ++ (n ++ "/" ++ suf) := by
              apply String.ext
              simp [String.data_append]
            rw [hassoc] at hqe
            have h5 : n ++ "/" ++ suf = p.1 := key_inj hqe
            have h6 := (hmem p (by simp [hp])).1
            exact slash_key_ne n suf h6 h5
          obtain ⟨hcR, hnR, hdR⟩ :=
            ih.2 cx path rest w' (cid + 1)
              (fun p hp => hmem p (by simp [hp])) hkey' hok
          refine ⟨?_, ?_, ?_⟩
          · rw [hcR, hcN, hnN]
            simp only [nTraceLF, List.append_assoc]
          · rw [hnR, hnN]
            simp only [crtL]
            omega
          · rw [hdR, hdN, hnN]
            simp only [iKeysLF, List.append_assoc]

/-- Two sorted permutations of a keyed list with distinct keys coincide. -/
theorem sorted_nodup_eq {α : Type} :
    ∀ (l₁ l₂ : List (String × α)), l₁.Perm l₂ →
      l₁.Sorted nameLe → l₂.Sorted nameLe →
      (l₁.map Prod.fst).Nodup → l₁ = l₂ := by
  intro l₁
  induction l₁ with
  | nil =>
    intro l₂ hp _ _ _
    exact hp.symm.eq_nil.symm
  | cons a t₁ ih =>
    intro l₂ hp hs₁ hs₂ hnd
    cases l₂ with
    | nil => exact absurd hp.eq_nil (by simp)
    | cons b t₂ =>
      have hab : a = b := by
        have hamem : a ∈ b :: t₂ := hp.mem_iff.mp (by simp)
        have hbmem : b ∈ a :: t₁ := hp.mem_iff.mpr (by simp)
        rw [List.sorted_cons] at hs₁ hs₂
        rcases List.mem_cons.mp hamem with h' | h'
        · exact h'
        · rcases List.mem_cons.mp hbmem with h'' | h''
          · exact h''.symm
          · exfalso
            have h1 : nameLe a b := hs₁.1 b h''
            have h2 : nameLe b a := hs₂.1 a h'
            have hk : a.1 = b.1 :=
              String.ext (clLe_antisymm a.1.data b.1.data h1 h2)
            simp only [List.map_cons, List.nodup_cons] at hnd
            exact hnd.1 (List.mem_map.mpr ⟨b, h'', hk.symm⟩)
      subst hab
      rw [List.sorted_cons] at hs₁ hs₂
      simp only [List.map_cons, List.nodup_cons] at hnd
      rw [ih t₂ hp.cons_inv hs₁.2 hs₂.2 hnd.2]

/-- Sorting two permuted keyed lists with distinct keys gives the same
list. -/
theorem sortPairs_eq_of_perm {α : Type} {l₁ l₂ : List (String × α)}
    (h : l₁.Perm l₂) (hnd : (l₁.map Prod.fst).Nodup) :
    sortPairs l₁ = sortPairs l₂ :=
  sorted_nodup_eq _ _
    ((sortPairs_perm l₁).trans (h.trans (sortPairs_perm l₂).symm))
    (List.sorted_insertionSort nameLe l₁)
    (List.sorted_insertionSort nameLe l₂)
    (((sortPairs_perm l₁).map Prod.fst).nodup_iff.mpr hnd)

/-- `ForestPtw` as a pointwise `Forall₂`. -/
theorem forestPtw_forall₂ :
    ∀ (ds mid : List (String × LTree)), ForestPtw ds mid →
      List.Forall₂ tpRel ds mid := by
  intro ds
  induction ds with
  | nil =>
    intro mid h
    cases h
    exact .nil
  | cons a t ih =>
    intro mid h
    cases h with
    | cons htp hf => exact .cons ⟨rfl, htp⟩ (ih _ hf)

/-- `tpRel`-related lists carry the same key sequence. -/
theorem forall₂_keys {l₁ l₂ : List (String × LTree)}
    (h : List.Forall₂ tpRel l₁ l₂) : l₁.map Prod.fst = l₂.map Prod.fst := by
  induction h with
  | nil => rfl
  | cons hr _ ih => simp [hr.1, ih]

/-- Ordered insertion respects pointwise relatedness (the comparison reads
only the key, which `tpRel` preserves). -/
theorem orderedInsert_rel :
    ∀ {l₁ l₂ : List (String × LTree)} {a b : String × LTree},
      List.Forall₂ tpRel l₁ l₂ → tpRel a b →
      List.Forall₂ tpRel (List.orderedInsert nameLe a l₁)
        (List.orderedInsert nameLe b l₂) := by
  intro l₁ l₂ a b h hab
  induction h with
  | nil => exact .cons hab .nil
  | cons hr hrest ih =>
    rename_i x y t₁ t₂
    have hcond : nameLe a x ↔ nameLe b y := by
      unfold nameLe
      rw [hab.1, hr.1]
    simp only [List.orderedInsert]
    by_cases hc : nameLe a x
    · rw [if_pos hc, if_pos (hcond.mp hc)]
      exact .cons hab (.cons hr hrest)
    · rw [if_neg hc, if_neg (fun h' => hc (hcond.mpr h'))]
      exact .cons hr ih

/-- Insertion sort respects pointwise relatedness. -/
theorem insertionSort_rel :
    ∀ {l₁ l₂ : List (String × LTree)}, List.Forall₂ tpRel l₁ l₂ →
      List.Forall₂ tpRel (sortPairs l₁) (sortPairs l₂) := by
  intro l₁ l₂ h
  induction h with
  | nil => exact .nil
  | cons hr hrest ih =>
    simp only [sortPairs, List.insertionSort]
    exact orderedInsert_rel ih hr

/-- Trees equal up to enumeration order have the same size and create the
same number of remote objects. -/
theorem treePerm_sz : ∀ n : Nat,
    (∀ t₁ t₂ : LTree, t₁.sz ≤ n → TreePerm t₁ t₂ →
      crt t₁ = crt t₂ ∧ t₁.sz = t₂.sz) ∧
    (∀ l₁ l₂ : List (String × LTree), szl l₁ ≤ n →
      List.Forall₂ tpRel l₁ l₂ →
      crtL l₁ = crtL l₂ ∧ szl l₁ = szl l₂) := by
  intro n
  induction n with
  | zero =>
    constructor
    · intro t₁ t₂ hle _
      obtain ⟨dirs, files⟩ := t₁
      simp [LTree.sz] at hle
    · intro l₁ l₂ hle hf
      cases hf with
      | nil => exact ⟨rfl, rfl⟩
      | cons hr hrest =>
        rename_i a b t₁ t₂
        obtain ⟨n', sub⟩ := a
        simp [szl] at hle
  | succ n ih =>
    constructor
    · intro t₁ t₂ hle hp
      obtain ⟨d₁, f₁⟩ := t₁
      obtain ⟨d₂, f₂⟩ := t₂
      cases hp with
      | node hptw hperm hfperm =>
        rename_i mid
        have hszb : szl d₁ ≤ n := by
          simp only [LTree.sz] at hle
          omega
        obtain ⟨hcrtm, hszm⟩ := ih.2 d₁ mid hszb (forestPtw_forall₂ d₁ mid hptw)
        have hlen₁ : d₁.length = mid.length :=
          (forestPtw_forall₂ d₁ mid hptw).length_eq
        have hlen₂ : mid.length = d₂.length := hperm.length_eq
        have hflen : f₁.length = f₂.length := hfperm.length_eq
        constructor
        · simp only [crt]
          rw [crtL_perm hperm] at hcrtm
          omega
        · simp only [LTree.sz]
          rw [szl_perm hperm] at hszm
          omega
    · intro l₁ l₂ hle hf
      cases hf with
      | nil => exact ⟨rfl, rfl⟩
      | cons hr hrest =>
        rename_i a b t₁ t₂
        obtain ⟨n₁, s₁⟩ := a
        obtain ⟨n₂, s₂⟩ := b
        simp only [szl] at hle
        have hsza : s₁.sz ≤ n := by omega
        have hszt : szl t₁ ≤ n := by omega
        obtain ⟨hc1, hs1⟩ := ih.1 s₁ s₂ hsza hr.2
        obtain ⟨hc2, hs2⟩ := ih.2 t₁ t₂ hszt hrest
        constructor
        · simp only [crtL]
          omega
        · simp only [szl]
          omega

/-- Related sibling lists produce the same creation calls. -/
theorem forall₂_creates (pid : Nat) :
    ∀ {l₁ l₂ : List (String × LTree)}, List.Forall₂ tpRel l₁ l₂ →
      l₁.map (fun q => Call.createCall q.1 pid)
        = l₂.map (fun q => Call.createCall q.1 pid) := by
  intro l₁ l₂ h
  induction h with
  | nil => rfl
  | cons hr _ ihc => simp [hr.1, ihc]

/-- The expected trace only depends on the tree contents, not on the
enumeration order of siblings. -/
theorem nTraceF_perm : ∀ fuel : Nat,
    (∀ (path : String) (pid nid : Nat) (t₁ t₂ : LTree),
      wfT t₁ = true → TreePerm t₁ t₂ →
      nTraceF fuel path pid nid t₁ = nTraceF fuel path pid nid t₂) ∧
    (∀ (path : String) (cid nid : Nat) (l₁ l₂ : List (String × LTree)),
      (∀ p ∈ l₁, wfT p.2 = true) → List.Forall₂ tpRel l₁ l₂ →
      nTraceLF fuel path cid nid l₁ = nTraceLF fuel path cid nid l₂) := by
  intro fuel
  induction fuel with
  | zero => exact ⟨fun _ _ _ _ _ _ _ => rfl, fun _ _ _ _ _ _ _ => rfl⟩
  | succ fuel ih =>
    constructor
    · intro path pid nid t₁ t₂ hwf hp
      obtain ⟨d₁, f₁⟩ := t₁
      obtain ⟨d₂, f₂⟩ := t₂
      cases hp with
      | node hptw hperm hfperm =>
        rename_i mid
        simp only [wfT, Bool.and_eq_true] at hwf
        obtain ⟨⟨⟨hnd, _⟩, hndf⟩, hwl⟩ := hwf
        have hf₂ := forestPtw_forall₂ d₁ mid hptw
        have hkeys : d₁.map Prod.fst = mid.map Prod.fst := forall₂_keys hf₂
        have hndm : (mid.map Prod.fst).Nodup := by
          rw [← hkeys]
          exact (nodupKeys_iff d₁).mp hnd
        have hsorteq : sortPairs mid = sortPairs d₂ :=
          sortPairs_eq_of_perm hperm hndm
        have hrel : List.Forall₂ tpRel (sortPairs d₁) (sortPairs d₂) := by
          rw [← hsorteq]
          exact insertionSort_rel hf₂
        have hfiles : sortPairs f₁ = sortPairs f₂ :=
          sortPairs_eq_of_perm hfperm ((nodupKeys_iff f₁).mp hndf)
        have hlen : d₁.length = d₂.length :=
          hf₂.length_eq.trans hperm.length_eq
        have hflen : f₁.length = f₂.length := hfperm.length_eq
        simp only [nTraceF]
        rw [hfiles, hlen, hflen]
        rw [forall₂_creates pid hrel]
        have hmems : ∀ p ∈ sortPairs d₁, wfT p.2 = true := fun p hp' =>
          wfL_mem d₁ hwl p ((sortPairs_perm d₁).mem_iff.mp hp')
        rw [ih.2 path nid (nid + d₂.length + f₂.length)
          (sortPairs d₁) (sortPairs d₂) hmems hrel]
    · intro path cid nid l₁ l₂ hmem hf
      cases hf with
      | nil => rfl
      | cons hr hrest =>
        rename_i a b t₁ t₂
        obtain ⟨n₁, s₁⟩ := a
        obtain ⟨n₂, s₂⟩ := b
        obtain ⟨hn, hs⟩ := hr
        simp only at hn hs
        subst hn
        simp only [nTraceLF]
        rw [ih.1 (path ++ "/" ++ n₁) cid nid s₁ s₂
          (hmem (n₁, s₁) (by simp)) hs]
        rw [(treePerm_sz s₁.sz).1 s₁ s₂ (le_refl _) hs |>.1]
        rw [ih.2 path (cid + 1) (nid + crt s₂) t₁ t₂
          (fun p hp => hmem p (by simp [hp])) hrest]

/-- Right-to-left membership transfer along a pointwise relation. -/
theorem forall₂_mem_right {l₁ l₂ : List (String × LTree)}
    (h : List.Forall₂ tpRel l₁ l₂) :
    ∀ p ∈ l₂, ∃ q ∈ l₁, tpRel q p := by
  induction h with
  | nil => intro p hp; simp at hp
  | cons hr _ ih =>
    intro p hp
    rcases List.mem_cons.mp hp with h' | h'
    · subst h'
      exact ⟨_, by simp, hr⟩
    · obtain ⟨q, hq, hrel⟩ := ih p h'
      exact ⟨q, by simp [hq], hrel⟩

/-- A member subtree is no bigger than the sibling list. -/
theorem sz_mem_le : ∀ (l : List (String × LTree)), ∀ p ∈ l, p.2.sz ≤ szl l := by
  intro l
  induction l with
  | nil => intro p hp; simp at hp
  | cons q rest ih =>
    intro p hp
    obtain ⟨n, sub⟩ := q
    rcases List.mem_cons.mp hp with h' | h'
    · subst h'
      simp only [szl]
      omega
    · have := ih p h'
      simp only [szl]
      omega

/-- `wfL` is exactly memberwise `wfT`. -/
theorem wfL_iff : ∀ (l : List (String × LTree)),
    wfL l = true ↔ ∀ p ∈ l, wfT p.2 = true := by
  intro l
  induction l with
  | nil => simp [wfL]
  | cons q rest ih =>
    obtain ⟨n, sub⟩ := q
    rw [wfL, Bool.and_eq_true, ih]
    constructor
    · rintro ⟨h1, h2⟩ p hp
      rcases List.mem_cons.mp hp with h' | h'
      · rw [h']
        exact h1
      · exact h2 p h'
    · intro h
      exact ⟨h (n, sub) (by simp), fun p hp => h p (by simp [hp])⟩

/-- Well-formedness is preserved by enumeration-order equivalence. -/
theorem treePerm_wf : ∀ n : Nat,
    (∀ t₁ t₂ : LTree, t₁.sz ≤ n → TreePerm t₁ t₂ →
      wfT t₁ = true → wfT t₂ = true) ∧
    (∀ l₁ l₂ : List (String × LTree), szl l₁ ≤ n →
      List.Forall₂ tpRel l₁ l₂ →
      (∀ p ∈ l₁, wfT p.2 = true) → ∀ p ∈ l₂, wfT p.2 = true) := by
  intro n
  induction n with
  | zero =>
    constructor
    · intro t₁ t₂ hle _
      obtain ⟨dirs, files⟩ := t₁
      simp [LTree.sz] at hle
    · intro l₁ l₂ hle hf hmem
      cases hf with
      | nil => intro p hp; simp at hp
      | cons hr hrest =>
        rename_i a b t₁ t₂
        obtain ⟨n', sub⟩ := a
        simp [szl] at hle
  | succ n ih =>
    constructor
    · intro t₁ t₂ hle hp hwf
      obtain ⟨d₁, f₁⟩ := t₁
      obtain ⟨d₂, f₂⟩ := t₂
      cases hp with
      | node hptw hperm hfperm =>
        rename_i mid
        simp only [wfT, Bool.and_eq_true] at hwf ⊢
        obtain ⟨⟨⟨hnd, hsl⟩, hndf⟩, hwl⟩ := hwf
        have hf₂ := forestPtw_forall₂ d₁ mid hptw
        have hkeys : d₁.map Prod.fst = mid.map Prod.fst := forall₂_keys hf₂
        have hszb : szl d₁ ≤ n := by
          simp only [LTree.sz] at hle
          omega
        refine ⟨⟨⟨?_, ?_⟩, ?_⟩, ?_⟩
        · rw [nodupKeys_iff]
          refine ((hperm.map Prod.fst).nodup_iff).mp ?_
          rw [← hkeys]
          exact (nodupKeys_iff d₁).mp hnd
        · rw [List.all_eq_true]
          intro p hp
          have hpm : p ∈ mid := (hperm.mem_iff).mpr hp
          obtain ⟨q, hq, hrel⟩ := forall₂_mem_right hf₂ p hpm
          rw [← hrel.1]
          rw [List.all_eq_true] at hsl
          exact hsl q hq
        · rw [nodupKeys_iff]
          refine ((hfperm.map Prod.fst).nodup_iff).mp ?_
          exact (nodupKeys_iff f₁).mp hndf
        · rw [wfL_iff]
          intro p hp
          have hpm : p ∈ mid := (hperm.mem_iff).mpr hp
          obtain ⟨q, hq, hrel⟩ := forall₂_mem_right hf₂ p hpm
          have hqsz : q.2.sz ≤ n := le_trans (sz_mem_le d₁ q hq) hszb
          exact ih.1 q.2 p.2 hqsz hrel.2 (wfL_mem d₁ hwl q hq)
    · intro l₁ l₂ hle hf hmem
      cases hf with
      | nil => intro p hp; simp at hp
      | cons hr hrest =>
        rename_i a b t₁ t₂
        obtain ⟨n₁, s₁⟩ := a
        obtain ⟨n₂, s₂⟩ := b
        simp only [szl] at hle
        intro p hp
        rcases List.mem_cons.mp hp with h' | h'
        · subst h'
          exact ih.1 s₁ _ (by omega) hr.2 (hmem (n₁, s₁) (by simp))
        · exact ih.2 t₁ t₂ (by omega) hrest
            (fun q hq => hmem q (by simp [hq])) p h'

/-! ## Claim C2: the success trace of a walk -/

/-- C2: for every well-formed local tree, a successful `upload_folder`
invocation (force=false) issues, after the target-resolution calls and the
single creation of the mirrored root, exactly the expected trace
`nTraceF`: one folder-creation call per directory and one file-upload call
per file, each directory's creation preceding every operation on its
children (its children are created and filled against ids allocated after
it), and sibling folders and sibling files in lexicographic name order.
And the call sequence is independent of the filesystem's enumeration
order: two successful runs on enumeration-reordered copies of the same
tree issue identical call sequences. -/
theorem claim_C2_success_trace :
    ∀ (t : LTree) (sourceStr sourceParent : String) (target : Option String)
      (name : String) (s : Sys),
      wfT t = true →
      ((upload_folder t sourceStr sourceParent target name false s).1
          = .ok () →
        ∃ (rcalls : List Call) (tid nid : Nat),
          (upload_folder t sourceStr sourceParent target name false s).2.sys.calls
            = s.calls ++ rcalls ++ [Call.createCall name tid]
              ++ nTraceF t.sz sourceStr nid (nid + 1) t) ∧
      (∀ t' : LTree, TreePerm t t' →
        (upload_folder t sourceStr sourceParent target name false s).1
          = .ok () →
        (upload_folder t' sourceStr sourceParent target name false s).1
          = .ok () →
        (upload_folder t' sourceStr sourceParent target name false s).2.sys.calls
          = (upload_folder t sourceStr sourceParent target name false s).2.sys.calls) := by
  intro t sourceStr sourceParent target name s hwf
  rcases hT : get_target_id s target with ⟨resT, s'⟩
  cases resT with
  | error e =>
    have herr : ∀ u : LTree,
        (upload_folder u sourceStr sourceParent target name false s).1
          = .error e := by
      intro u
      rw [upload_folder, hT]
    constructor
    · intro hok
      rw [herr t] at hok
      simp at hok
    · intro t' _ hok _
      rw [herr t] at hok
      simp at hok
  | ok tid =>
    by_cases hcl : s'.fs.clash name tid
    · have hR2 : create_folder_f s' name tid false
          = (.error (.nameClash name tid),
             { s' with calls := s'.calls ++ [.createCall name tid] }) := by
        rw [create_folder_f_false, create_folder_eq, if_pos hcl]
      have herr : ∀ u : LTree,
          (upload_folder u sourceStr sourceParent target name false s).1
            = .error (.nameClash name tid) := by
        intro u
        rw [upload_folder, hT]
        dsimp only
        rw [hR2]
      constructor
      · intro hok
        rw [herr t] at hok
        simp at hok
      · intro t' _ hok _
        rw [herr t] at hok
        simp at hok
    · have hR2 : create_folder_f s' name tid false
          = (.ok ⟨s'.fs.nextId, name, "FOLDER", 0, tid⟩,
             ⟨⟨s'.fs.entries ++ [⟨s'.fs.nextId, name, "FOLDER", 0, tid⟩],
               s'.fs.nextId + 1⟩,
              s'.calls ++ [.createCall name tid]⟩) := by
        rw [create_folder_f_false, create_folder_eq, if_neg hcl]
      have hrun : ∀ u : LTree,
          upload_folder u sourceStr sourceParent target name false s
            = walkNodeF
                ⟨name, sourceParent ++ "/", totalCount u, totalSize u⟩
                false u.sz sourceStr u
                ⟨⟨⟨s'.fs.entries
                     ++ [⟨s'.fs.nextId, name, "FOLDER", 0, tid⟩],
                   s'.fs.nextId + 1⟩,
                  s'.calls ++ [.createCall name tid]⟩,
                 [(sourceStr, s'.fs.nextId)], 0, 0, []⟩ := by
        intro u
        rw [upload_folder, hT]
        dsimp only
        rw [hR2]
        dsimp only [walkNode]
      have htr : ∀ u : LTree, wfT u = true →
          (upload_folder u sourceStr sourceParent target name false s).1
            = .ok () →
          (upload_folder u sourceStr sourceParent target name false s).2.sys.calls
            = (s'.calls ++ [Call.createCall name tid])
              ++ nTraceF u.sz sourceStr s'.fs.nextId (s'.fs.nextId + 1) u := by
        intro u hu hok
        rw [hrun u] at hok ⊢
        obtain ⟨hc, _, _⟩ :=
          (walk_trace u.sz).1
            ⟨name, sourceParent ++ "/", totalCount u, totalSize u⟩
            sourceStr u
            ⟨⟨⟨s'.fs.entries ++ [⟨s'.fs.nextId, name, "FOLDER", 0, tid⟩],
               s'.fs.nextId + 1⟩,
              s'.calls ++ [.createCall name tid]⟩,
             [(sourceStr, s'.fs.nextId)], 0, 0, []⟩
            s'.fs.nextId hu (by simp [lookupKey]) hok
        rw [hc]
      constructor
      · intro hok
        obtain ⟨tail₀, ctail₀, _, hc₀, _⟩ := get_target_id_mono s target
        rw [hT] at hc₀
        refine ⟨ctail₀, tid, s'.fs.nextId, ?_⟩
        rw [htr t hwf hok, hc₀]
      · intro t' hp hok hok'
        have hwf' : wfT t' = true :=
          (treePerm_wf t.sz).1 t t' (le_refl _) hp hwf
        have hsz : t.sz = t'.sz :=
          ((treePerm_sz t.sz).1 t t' (le_refl _) hp).2
        rw [htr t hwf hok, htr t' hwf' hok', ← hsz,
          (nTraceF_perm t.sz).1 sourceStr s'.fs.nextId (s'.fs.nextId + 1)
            t t' hwf hp]

/-- Witness for C2: the two enumeration orders of the example tree produce
identical remote call sequences on their (successful) uploads. -/
theorem claim_C2_success_trace_witness :
    (upload_folder tEx2 "src" "." none "src" false sys0).2.sys.calls
      = (upload_folder tEx "src" "." none "src" false sys0).2.sys.calls := by
  have hB : TreePerm (LTree.node [] [("y", 2)]) (LTree.node [] [("y", 2)]) :=
    TreePerm.node ForestPtw.nil (List.Perm.refl _) (List.Perm.refl _)
  have hA : TreePerm (LTree.node [] []) (LTree.node [] []) :=
    TreePerm.node ForestPtw.nil (List.Perm.refl _) (List.Perm.refl _)
  have hp : TreePerm tEx tEx2 :=
    TreePerm.node (ForestPtw.cons hB (ForestPtw.cons hA ForestPtw.nil))
      (List.Perm.swap ("a", LTree.node [] []) ("b", LTree.node [] [("y", 2)]) [])
      (List.Perm.refl _)
  exact (claim_C2_success_trace tEx "src" "." none "src" sys0
    (by decide)).2 tEx2 hp (by decide) (by decide)

/-- When exactly one same-name sibling exists, the folder search of the
force policy finds it exactly when it is a FOLDER. -/
theorem find?_clash_uniq :
    ∀ (l : List Entry) (n : String) (p : Nat) (e : Entry),
      l.filter (fun f => f.parent == p && f.name == n) = [e] →
      l.find? (fun f => f.parent == p
          && (f.name == n && f.file_type == "FOLDER"))
        = if e.file_type == "FOLDER" then some e else none := by
  intro l
  induction l with
  | nil =>
    intro n p e h
    simp at h
  | cons a t ih =>
    intro n p e h
    rw [List.filter_cons] at h
    by_cases hpd : (a.parent == p && a.name == n) = true
    · rw [if_pos hpd] at h
      simp only [List.cons.injEq] at h
      obtain ⟨ha, ht⟩ := h
      subst ha
      rw [Bool.and_eq_true] at hpd
      by_cases hfl : (a.file_type == "FOLDER") = true
      · rw [List.find?_cons_of_pos, if_pos hfl]
        simp [hpd.1, hpd.2, hfl]
      · rw [List.find?_cons_of_neg, if_neg hfl]
        · rw [List.find?_eq_none]
          intro x hx
          have hnx := List.filter_eq_nil_iff.mp ht x hx
          intro hc
          rw [Bool.and_eq_true, Bool.and_eq_true] at hc
          rw [Bool.and_eq_true] at hnx
          exact hnx ⟨hc.1, hc.2.1⟩
        · intro hc
          rw [Bool.and_eq_true, Bool.and_eq_true] at hc
          exact hfl hc.2.2
    · rw [if_neg hpd] at h
      rw [List.find?_cons_of_neg, ih n p e h]
      intro hc
      rw [Bool.and_eq_true, Bool.and_eq_true] at hc
      rw [Bool.and_eq_true] at hpd
      exact hpd ⟨hc.1, hc.2.1⟩

/-- C1 (spec-modelled force policy): when a folder creation under `force`
hits a name clash and the unique same-name sibling is a FOLDER, the
uploader issues exactly one delete (of that sibling) and exactly one
creation retry, which succeeds; when the sibling is a FILE, it fails with
`NameClashWithFile` and issues no delete — files are never replaced.  And
uploading the same source twice with force succeeds both times (shown on a
concrete run: the second upload deletes the mirror folder created by the
first and rebuilds it). -/
theorem claim_C1_force_policy :
    (∀ (s : Sys) (n : String) (p : Nat) (e : Entry),
      s.fs.entries.filter (fun f => f.parent == p && f.name == n) = [e] →
      (e.file_type = "FOLDER" →
        create_folder_f s n p true
          = (.ok ⟨s.fs.nextId, n, "FOLDER", 0, p⟩,
             ⟨⟨(s.fs.entries.filter (fun f => f.id != e.id))
                 ++ [⟨s.fs.nextId, n, "FOLDER", 0, p⟩],
               s.fs.nextId + 1⟩,
              s.calls ++ [.createCall n p, .listCall p, .deleteCall e.id,
                          .createCall n p]⟩)) ∧
      (e.file_type = "FILE" →
        create_folder_f s n p true
          = (.error (.nameClashWithFile n p),
             ⟨s.fs, s.calls ++ [.createCall n p, .listCall p]⟩))) ∧
    ((upload_folder tEx "src" "." none "src" true sys0).1 = .ok () ∧
     (upload_folder tEx "src" "." none "src" true
        (upload_folder tEx "src" "." none "src" true sys0).2.sys).1
       = .ok ()) := by
  constructor
  · intro s n p e hfe
    have hem : e ∈ s.fs.entries.filter (fun f => f.parent == p && f.name == n) := by
      rw [hfe]
      simp
    obtain ⟨hemem, hepd⟩ := List.mem_filter.mp hem
    have hecl : s.fs.clash n p = true := by
      rw [Remote.clash, List.any_eq_true]
      exact ⟨e, hemem, hepd⟩
    have h1 : create_folder s n p
        = (.error (.nameClash n p),
           { s with calls := s.calls ++ [.createCall n p] }) := by
      rw [create_folder_eq, if_pos hecl]
    have h2 : get_folder { s with calls := s.calls ++ [.createCall n p] } n p
        = ((if e.file_type == "FOLDER" then some e else none),
           ⟨s.fs, s.calls ++ [.createCall n p] ++ [.listCall p]⟩) := by
      rw [get_folder]
      dsimp only [apiList]
      rw [find?_filter]
      rw [show (fun a => (fun f => f.parent == p) a
            && (fun f => f.name == n && f.file_type == "FOLDER") a)
          = (fun f : Entry => f.parent == p
            && (f.name == n && f.file_type == "FOLDER")) from rfl]
      rw [find?_clash_uniq s.fs.entries n p e hfe]
    constructor
    · intro hft
      have hfb : (e.file_type == "FOLDER") = true := by
        rw [hft]
        decide
      rw [hfb, if_pos rfl] at h2
      have hcl2 : (Remote.mk
          (s.fs.entries.filter (fun f => f.id != e.id))
          s.fs.nextId).clash n p = false := by
        rw [Remote.clash, List.any_eq_false]
        intro f hf
        obtain ⟨hfm, hfid⟩ := List.mem_filter.mp hf
        intro hfp
        have : f ∈ s.fs.entries.filter
            (fun f => f.parent == p && f.name == n) :=
          List.mem_filter.mpr ⟨hfm, hfp⟩
        rw [hfe] at this
        have hfe' : f = e := by simpa using this
        rw [hfe'] at hfid
        simp at hfid
      have h4 : create_folder
          (apiDelete ⟨s.fs, s.calls ++ [.createCall n p] ++ [.listCall p]⟩
            e.id) n p
          = (.ok ⟨s.fs.nextId, n, "FOLDER", 0, p⟩,
             ⟨⟨(s.fs.entries.filter (fun f => f.id != e.id))
                 ++ [⟨s.fs.nextId, n, "FOLDER", 0, p⟩],
               s.fs.nextId + 1⟩,
              s.calls ++ [.createCall n p, .listCall p, .deleteCall e.id,
                          .createCall n p]⟩) := by
        rw [create_folder_eq]
        dsimp only [apiDelete]
        rw [if_neg (by simp [hcl2])]
        simp [List.append_assoc]
      rw [create_folder_f, h1]
      dsimp only
      rw [if_pos rfl]
      rw [h2]
      dsimp only
      rw [h4]
    · intro hft
      have hfb : (e.file_type == "FOLDER") = false := by
        rw [hft]
        rfl
      rw [hfb] at h2
      rw [if_neg (by simp)] at h2
      rw [create_folder_f, h1]
      dsimp only
      rw [if_pos rfl]
      rw [h2]
      simp
  · exact ⟨by decide, by decide⟩

/-- Witness for C1 on concrete states: with a folder `src` at the root the
force creation deletes it (exactly one delete) and recreates; with a file
`src` at the root it aborts with `NameClashWithFile` and no delete. -/
theorem claim_C1_force_policy_witness :
    (create_folder_f sysClash "src" 0 true
      = (.ok ⟨2, "src", "FOLDER", 0, 0⟩,
         ⟨⟨[⟨2, "src", "FOLDER", 0, 0⟩], 3⟩,
          [.createCall "src" 0, .listCall 0, .deleteCall 1,
           .createCall "src" 0]⟩)) ∧
    (create_folder_f sysFileClash "src" 0 true
      = (.error (.nameClashWithFile "src" 0),
         ⟨⟨[⟨1, "src", "FILE", 7, 0⟩], 2⟩,
          [.createCall "src" 0, .listCall 0]⟩)) :=
  ⟨((claim_C1_force_policy.1 sysClash "src" 0 ⟨1, "src", "FOLDER", 0, 0⟩
      (by decide)).1 rfl).trans (by decide),
   ((claim_C1_force_policy.1 sysFileClash "src" 0 ⟨1, "src", "FILE", 7, 0⟩
      (by decide)).2 rfl).trans (by decide)⟩

/-! ## Claim C9: termination of the OAuth polling loop

The loop guard is `while remaining:`, i.e. it stops only when the integer
`remaining` is EXACTLY zero.  Each 404 subtracts `retry_period`.  When the
retry period does not divide the timeout budget, `remaining` skips over zero
and becomes negative (which is truthy in Python), so the loop keeps polling
forever on persistent 404s — contradicting the function's own docstring and
the test "If the server doesn't return access token in X seconds, Quits".
The repository's configuration in tests uses 300/5, where the bug is
invisible. -/

/-- C9 is a code bug: with timeout budget 5 and retry period 2 and a server
that keeps answering 404, the loop is still polling after 100 responses
(about 200 seconds of sleeps, four times the budget), with `remaining`
deep below zero; the claim (and the docstring) say it must abort once the
5-second budget is exhausted.  With a period dividing the budget (300/5 as
in the tests) it does time out after exactly budget/period polls. -/
theorem claim_C9_poll_runs_past_timeout :
    pollLoop 2 5 (List.replicate 100 ⟨404, ""⟩) = .stillPolling (-195) ∧
    pollLoop 5 300 (List.replicate 60 ⟨404, ""⟩) = .timedOut ∧
    pollLoop 2 5 [⟨200, "tok"⟩] = .token "tok" ∧
    pollLoop 2 5 [⟨404, ""⟩, ⟨500, ""⟩] = .serverError := by
  refine ⟨?_, ?_, by decide, by decide⟩ <;> decide

end Putio
